import Mathlib

/-!
# Verification of the Firi exchange sync/normalization pipeline

A shallow embedding, in Lean 4, of the core of the `arklier-finance`
repository: request signing (`src/lib/firi/sign.ts`), the rate-limited
pagination loop (`src/lib/firi/sync.ts`), at-rest secret encryption
(`src/lib/crypto/secrets.ts`, two variants), the Postgres bytea wire codec
(`src/lib/crypto/pg-bytea.ts`), and the normalization / enrichment engine
(`src/lib/firi/normalize.ts`).

JavaScript numbers are modelled as `Rat` (the claims under verification are
sign/abs/sum facts that are exact in the source's value range), byte buffers
as `List Nat` with every element below 256 by construction, and fallible
code as `Except String`.  External library primitives (Node's AES-256-GCM
and the UTF-8 text codec of `Buffer`) are modelled as explicit parameters
bundled with their documented contracts; HMAC-SHA256 is implemented
concretely (FIPS 180-4 / FIPS 198-1) so signatures can be computed inside
the logic.
-/

set_option maxRecDepth 1000000

namespace Arklier

/-! ## SHA-256 over byte lists (FIPS 180-4)

Words are `Nat` kept below `2^32` by explicit masking.  Everything is
structurally recursive so that the kernel can evaluate digests. -/

/-- `2^32`, the word modulus. -/
def M32 : Nat := 4294967296

/-- Truncate to a 32-bit word. -/
def mask32 (x : Nat) : Nat := x % M32

/-- Right-rotation of a 32-bit word. -/
def rotr32 (x n : Nat) : Nat := mask32 ((x >>> n) ||| (x <<< (32 - n)))

/-- Bitwise complement of a 32-bit word. -/
def not32 (x : Nat) : Nat := x ^^^ 0xffffffff

/-- `Ch(x,y,z)` of FIPS 180-4. -/
def ch32 (x y z : Nat) : Nat := (x &&& y) ^^^ (not32 x &&& z)

/-- `Maj(x,y,z)` of FIPS 180-4. -/
def maj32 (x y z : Nat) : Nat := (x &&& y) ^^^ (x &&& z) ^^^ (y &&& z)

/-- `Σ₀`. -/
def bsig0 (x : Nat) : Nat := rotr32 x 2 ^^^ rotr32 x 13 ^^^ rotr32 x 22

/-- `Σ₁`. -/
def bsig1 (x : Nat) : Nat := rotr32 x 6 ^^^ rotr32 x 11 ^^^ rotr32 x 25

/-- `σ₀`. -/
def ssig0 (x : Nat) : Nat := rotr32 x 7 ^^^ rotr32 x 18 ^^^ (x >>> 3)

/-- `σ₁`. -/
def ssig1 (x : Nat) : Nat := rotr32 x 17 ^^^ rotr32 x 19 ^^^ (x >>> 10)

/-- The 64 SHA-256 round constants (FIPS 180-4, in decimal). -/
def sha256K : List Nat :=
  [1116352408, 1899447441, 3049323471, 3921009573, 961987163, 1508970993,
   2453635748, 2870763221, 3624381080, 310598401, 607225278, 1426881987,
   1925078388, 2162078206, 2614888103, 3248222580, 3835390401, 4022224774,
   264347078, 604807628, 770255983, 1249150122, 1555081692, 1996064986,
   2554220882, 2821834349, 2952996808, 3210313671, 3336571891, 3584528711,
   113926993, 338241895, 666307205, 773529912, 1294757372, 1396182291,
   1695183700, 1986661051, 2177026350, 2456956037, 2730485921, 2820302411,
   3259730800, 3345764771, 3516065817, 3600352804, 4094571909, 275423344,
   430227734, 506948616, 659060556, 883997877, 958139571, 1322822218,
   1537002063, 1747873779, 1955562222, 2024104815, 2227730452, 2361852424,
   2428436474, 2756734187, 3204031479, 3329325298]

/-- The eight SHA-256 initial hash values (FIPS 180-4, in decimal). -/
def sha256IV : List Nat :=
  [1779033703, 3144134277, 1013904242, 2773480762,
   1359893119, 2600822924, 528734635, 1541459225]

/-- Big-endian 4-byte serialization of a 32-bit word. -/
def be32 (x : Nat) : List Nat :=
  [(x >>> 24) &&& 255, (x >>> 16) &&& 255, (x >>> 8) &&& 255, x &&& 255]

/-- Big-endian 8-byte serialization of a 64-bit word. -/
def be64 (x : Nat) : List Nat :=
  [(x >>> 56) &&& 255, (x >>> 48) &&& 255, (x >>> 40) &&& 255, (x >>> 32) &&& 255,
   (x >>> 24) &&& 255, (x >>> 16) &&& 255, (x >>> 8) &&& 255, x &&& 255]

/-- SHA-256 padding: `0x80`, zeros to 56 mod 64, then the 64-bit bit length. -/
def sha256Pad (msg : List Nat) : List Nat :=
  let len := msg.length
  let zeros := (56 + 64 - (len + 1) % 64) % 64
  msg ++ [0x80] ++ List.replicate zeros 0 ++ be64 (8 * len)

/-- Assemble the 16 initial 32-bit message-schedule words (big-endian) from a
64-byte block. -/
def words16 : List Nat → List Nat
  | b0 :: b1 :: b2 :: b3 :: rest =>
      ((b0 <<< 24) ||| (b1 <<< 16) ||| (b2 <<< 8) ||| b3) :: words16 rest
  | _ => []

/-- Extend the message schedule.  `wrev` holds the schedule computed so far,
most recent word first; `fuel` counts the 48 remaining extension steps. -/
def extendSchedule : Nat → List Nat → List Nat
  | 0, wrev => wrev
  | fuel + 1, wrev =>
      let next := mask32 (ssig1 (wrev.getD 1 0) + wrev.getD 6 0 +
                          ssig0 (wrev.getD 14 0) + wrev.getD 15 0)
      extendSchedule fuel (next :: wrev)

/-- The full 64-word message schedule of one block. -/
def schedule64 (block : List Nat) : List Nat :=
  (extendSchedule 48 (words16 block).reverse).reverse

/-- The eight-word working state of the compression function. -/
structure HState where
  a : Nat
  b : Nat
  c : Nat
  d : Nat
  e : Nat
  f : Nat
  g : Nat
  hh : Nat
  deriving Repr, DecidableEq

/-- One round of the SHA-256 compression function. -/
def round256 (s : HState) (kw : Nat × Nat) : HState :=
  let t1 := mask32 (s.hh + bsig1 s.e + ch32 s.e s.f s.g + kw.1 + kw.2)
  let t2 := mask32 (bsig0 s.a + maj32 s.a s.b s.c)
  { a := mask32 (t1 + t2), b := s.a, c := s.b, d := s.c,
    e := mask32 (s.d + t1), f := s.e, g := s.f, hh := s.g }

/-- Process one 64-byte block, updating the eight-word hash state. -/
def compressBlock (st : List Nat) (block : List Nat) : List Nat :=
  let w := schedule64 block
  let s0 : HState :=
    { a := st.getD 0 0, b := st.getD 1 0, c := st.getD 2 0, d := st.getD 3 0,
      e := st.getD 4 0, f := st.getD 5 0, g := st.getD 6 0, hh := st.getD 7 0 }
  let s := (sha256K.zip w).foldl round256 s0
  [mask32 (st.getD 0 0 + s.a), mask32 (st.getD 1 0 + s.b),
   mask32 (st.getD 2 0 + s.c), mask32 (st.getD 3 0 + s.d),
   mask32 (st.getD 4 0 + s.e), mask32 (st.getD 5 0 + s.f),
   mask32 (st.getD 6 0 + s.g), mask32 (st.getD 7 0 + s.hh)]

/-- Split a byte list into 64-byte chunks (`fuel` bounds the recursion and is
always supplied as the length of the list). -/
def chunks64 : Nat → List Nat → List (List Nat)
  | 0, _ => []
  | _, [] => []
  | fuel + 1, bs => bs.take 64 :: chunks64 fuel (bs.drop 64)

/-- SHA-256 of a byte list: 32 digest bytes. -/
def sha256 (msg : List Nat) : List Nat :=
  let padded := sha256Pad msg
  let st := (chunks64 padded.length padded).foldl compressBlock sha256IV
  (st.map be32).flatten

/-! ## HMAC-SHA256 (FIPS 198-1) -/

/-- Zero-pad (or hash, then zero-pad) a key to the 64-byte SHA-256 block. -/
def hmacKey0 (key : List Nat) : List Nat :=
  let k := if key.length > 64 then sha256 key else key
  k ++ List.replicate (64 - k.length) 0

/-- XOR every byte of a block with a constant. -/
def xorConst (block : List Nat) (c : Nat) : List Nat :=
  block.map (· ^^^ c)

/-- HMAC-SHA256 digest (32 bytes) of `msg` under `key`. -/
def hmacSha256 (key msg : List Nat) : List Nat :=
  let k0 := hmacKey0 key
  sha256 (xorConst k0 0x5c ++ sha256 (xorConst k0 0x36 ++ msg))

/-! ## Hex and UTF-8 encoding -/

/-- The lowercase hex alphabet, digits then `a`-`f`. -/
def hexAlphabet : List Char :=
  (List.range 10).map (fun i => Char.ofNat ('0'.toNat + i)) ++
    (List.range 6).map (fun i => Char.ofNat ('a'.toNat + i))

/-- The lowercase hex digit of a value below 16. -/
def hexChar (n : Nat) : Char := hexAlphabet.getD n '0'

/-- Two lowercase hex digits of one byte. -/
def byteToHex (b : Nat) : List Char := [hexChar (b / 16), hexChar (b % 16)]

/-- Lowercase hex string of a byte list (Node's `Buffer.toString('hex')`). -/
def hexOfBytes (bs : List Nat) : List Char := (bs.map byteToHex).flatten

/-- UTF-8 encoding of one Unicode scalar value. -/
def utf8Char (c : Char) : List Nat :=
  let v := c.toNat
  if v < 0x80 then [v]
  else if v < 0x800 then [0xC0 ||| (v >>> 6), 0x80 ||| (v &&& 0x3F)]
  else if v < 0x10000 then
    [0xE0 ||| (v >>> 12), 0x80 ||| ((v >>> 6) &&& 0x3F), 0x80 ||| (v &&& 0x3F)]
  else
    [0xF0 ||| (v >>> 18), 0x80 ||| ((v >>> 12) &&& 0x3F),
     0x80 ||| ((v >>> 6) &&& 0x3F), 0x80 ||| (v &&& 0x3F)]

/-- UTF-8 bytes of a string (Node's `Buffer.from(s, 'utf8')`). -/
def utf8Bytes (s : String) : List Nat := (s.toList.map utf8Char).flatten

/-- HMAC-SHA256 of a message string under a passphrase key, both UTF-8
encoded, rendered as a lowercase hex string — the exact semantics of
`crypto.createHmac('sha256', key).update(msg).digest('hex')`. -/
def hmacSha256Hex (key msg : String) : String :=
  String.mk (hexOfBytes (hmacSha256 (utf8Bytes key) (utf8Bytes msg)))

/-! ## Signer — `src/lib/firi/sign.ts` -/

/-- `FiriCreds` of `sign.ts`. -/
structure FiriCreds where
  apiKey : String
  clientId : String
  secretPlain : String
  deriving Repr, DecidableEq

/-- `FiriHeaders` of `sign.ts`: the exact three properties of the header
object literal returned by `makeFiriHeaders`. -/
structure FiriHeaders where
  firiAccessKey : String
  firiUserClientid : String
  firiUserSignature : String
  deriving Repr, DecidableEq

/-- `JSON.stringify({timestamp, validity})` for the two string fields, in
source insertion order, with no request body (the GET path used by
`firiFetch`). -/
def signingPayload (timestamp validity : String) : String :=
  "\x7b\"timestamp\":\"" ++ timestamp ++ "\",\"validity\":\"" ++ validity ++ "\"\x7d"

/-- `makeFiriHeaders` of `sign.ts` with no request body.  Server time and
validity are modelled as `Nat` (the claims quantify over positive integers);
the source's `serverTime <= 0` and `validitySec <= 0 || validitySec > 3600`
guards become the corresponding `Nat` checks.  Thrown errors are `.error`. -/
def makeFiriHeaders (creds : FiriCreds) (serverTime : Nat) (validitySec : Nat) :
    Except String FiriHeaders :=
  if creds.apiKey = "" ∨ creds.clientId = "" ∨ creds.secretPlain = "" then
    .error "Missing required credentials: apiKey, clientId, and secretPlain are required"
  else if serverTime = 0 then
    .error "Invalid server time: must be a positive number representing epoch seconds"
  else if validitySec = 0 ∨ validitySec > 3600 then
    .error "Invalid validity: must be between 1 and 3600 seconds"
  else
    let timestamp := toString serverTime
    let validity := toString validitySec
    let payload := signingPayload timestamp validity
    let sig := hmacSha256Hex creds.secretPlain payload
    .ok { firiAccessKey := creds.apiKey,
          firiUserClientid := creds.clientId,
          firiUserSignature := sig }

/-- The key/value pairs of the header object literal returned by
`makeFiriHeaders` (its exact three keys). -/
def headerFields (h : FiriHeaders) : List (String × String) :=
  [("firi-access-key", h.firiAccessKey),
   ("firi-user-clientid", h.firiUserClientid),
   ("firi-user-signature", h.firiUserSignature)]

/-- JavaScript property access `headers[key]` on the returned header object:
`some` when the property exists, `none` for `undefined`. -/
def headerProp (h : FiriHeaders) (key : String) : Option String :=
  (headerFields h).lookup key

/-- The `authDetails` record `firiFetch` (`src/lib/firi/fetch.ts`) attaches
to a 401 error: it reads `headers.timestamp` and `headers.validity` from the
object returned by `makeFiriHeaders`. -/
def firiFetch401AuthDetails (h : FiriHeaders) : Option String × Option String :=
  (headerProp h "timestamp", headerProp h "validity")

/-! ## Secret cipher — the two `encryptSecret`/`decryptSecret` variants

The source composes Node's `crypto` AES-256-GCM and `Buffer` UTF-8
primitives; those externals are modelled as an explicit parameter bundling
the functions with their documented contracts (GCM decryption inverts
encryption under the same key/IV, ciphertext length equals plaintext
length, tags are 16 bytes, UTF-8 decoding inverts encoding).  What the
repository itself contributes — the `IV ‖ Tag ‖ Ciphertext` layout, the
fixed split offsets, and the length gates — is modelled from the source. -/

/-- The external primitives used by `secrets.ts`, with their library
contracts as bundled laws.  `gcmEnc iv pt = (ciphertext, tag)`;
`gcmDec iv ct tag` is `none` exactly when tag verification fails. -/
structure CipherLib where
  gcmEnc : List Nat → List Nat → List Nat × List Nat
  gcmDec : List Nat → List Nat → List Nat → Option (List Nat)
  textEnc : String → List Nat
  textDec : List Nat → String
  gcm_roundtrip : ∀ iv pt, gcmDec iv (gcmEnc iv pt).1 (gcmEnc iv pt).2 = some pt
  gcm_ct_length : ∀ iv pt, (gcmEnc iv pt).1.length = pt.length
  gcm_tag_length : ∀ iv pt, (gcmEnc iv pt).2.length = 16
  text_roundtrip : ∀ s, textDec (textEnc s) = s
  textEnc_nil_iff : ∀ s, textEnc s = [] ↔ s = ""

/-- `encryptSecret` (variant 1, `src/lib/crypto/secrets.ts`): fresh random
IV modelled as the explicit `iv` argument; output is `iv ‖ tag ‖ enc`. -/
def encryptSecretV1 (lib : CipherLib) (iv : List Nat) (plain : String) : List Nat :=
  let encTag := lib.gcmEnc iv (lib.textEnc plain)
  iv ++ encTag.2 ++ encTag.1

/-- `decryptSecret` (variant 1): rejects blobs shorter than `12 + 16 + 1`
bytes, splits at offsets 12 and 28, then runs GCM decryption with the tag. -/
def decryptSecretV1 (lib : CipherLib) (blob : List Nat) : Except String String :=
  if blob.length < 12 + 16 + 1 then .error "Encrypted blob too short"
  else
    let iv := blob.take 12
    let tag := (blob.drop 12).take 16
    let enc := blob.drop 28
    match lib.gcmDec iv enc tag with
    | some dec => .ok (lib.textDec dec)
    | none => .error "Unsupported state or unable to authenticate data"

/-- `encryptSecret` (variant 2): rejects the empty string (`!plain` is
truthy for `''`), then produces `iv ‖ tag ‖ enc` like variant 1. -/
def encryptSecretV2 (lib : CipherLib) (iv : List Nat) (plain : String) :
    Except String (List Nat) :=
  if plain = "" then .error "Invalid input: plain must be a non-empty string"
  else
    let encTag := lib.gcmEnc iv (lib.textEnc plain)
    .ok (iv ++ encTag.2 ++ encTag.1)

/-- `decryptSecret` (variant 2): rejects blobs shorter than
`IV_LENGTH + TAG_LENGTH = 28` bytes; any failure past the length gate is
reported as the generic `'Failed to decrypt secret'`. -/
def decryptSecretV2 (lib : CipherLib) (blob : List Nat) : Except String String :=
  if blob.length < 12 + 16 then .error "Invalid encrypted data format"
  else
    let iv := blob.take 12
    let tag := (blob.drop 12).take 16
    let enc := blob.drop 28
    match lib.gcmDec iv enc tag with
    | some dec => .ok (lib.textDec dec)
    | none => .error "Failed to decrypt secret"

/-- A concrete `CipherLib` instance for witnesses: the ciphertext is the
plaintext bytes, the tag is 16 zero bytes, and text is coded by Unicode
scalar value.  It satisfies every bundled law. -/
def witnessCipherLib : CipherLib where
  gcmEnc := fun _ pt => (pt, List.replicate 16 0)
  gcmDec := fun _ ct tag => if tag = List.replicate 16 0 then some ct else none
  textEnc := fun s => s.toList.map Char.toNat
  textDec := fun bs => String.mk (bs.map Char.ofNat)
  gcm_roundtrip := by intro iv pt; simp
  gcm_ct_length := by intro iv pt; simp
  gcm_tag_length := by intro iv pt; simp
  text_roundtrip := by
    intro s
    show String.mk ((s.toList.map Char.toNat).map Char.ofNat) = s
    rw [List.map_map]
    have : (Char.ofNat ∘ Char.toNat) = id := by
      funext c; exact Char.ofNat_toNat c
    rw [this, List.map_id]
    rfl
  textEnc_nil_iff := by
    intro s
    show s.toList.map Char.toNat = [] ↔ s = ""
    rw [List.map_eq_nil_iff]
    constructor
    · intro hnil
      cases s with
      | mk data =>
        cases hnil
        rfl
    · intro hs; subst hs; rfl

/-! ## Binary transport codec — `src/lib/crypto/pg-bytea.ts` -/

/-- The three input shapes `fromPgBytea` accepts: an already-decoded byte
array (`Uint8Array`), a plain number array, or a string. -/
inductive PgByteaValue where
  | uint8Array (bytes : List Nat)
  | numberArray (bytes : List Nat)
  | str (s : String)
  deriving Repr, DecidableEq

/-- `toPgByteaHex`: a literal `\x` prefix followed by lowercase hex. -/
def toPgByteaHex (buf : List Nat) : String :=
  "\\x" ++ String.mk (hexOfBytes buf)

/-- Value of one hex digit (upper or lower case); 0 for other characters,
matching Node's lenient `Buffer.from(_, 'hex')` on the valid inputs the
codec claims range over. -/
def hexDigitVal (c : Char) : Nat :=
  if '0' ≤ c ∧ c ≤ '9' then c.toNat - '0'.toNat
  else if 'a' ≤ c ∧ c ≤ 'f' then c.toNat - 'a'.toNat + 10
  else if 'A' ≤ c ∧ c ≤ 'F' then c.toNat - 'A'.toNat + 10
  else 0

/-- Decode a hex character list two digits at a time. -/
def hexToBytes : List Char → List Nat
  | hi :: lo :: rest => (16 * hexDigitVal hi + hexDigitVal lo) :: hexToBytes rest
  | _ => []

/-- The standard base64 alphabet: `A`-`Z`, `a`-`z`, digits, `+`, `/`. -/
def base64Alphabet : List Char :=
  (List.range 26).map (fun i => Char.ofNat ('A'.toNat + i)) ++
    (List.range 26).map (fun i => Char.ofNat ('a'.toNat + i)) ++
    (List.range 10).map (fun i => Char.ofNat ('0'.toNat + i)) ++ ['+', '/']

/-- Base64 digit of a 6-bit value. -/
def b64Char (n : Nat) : Char := base64Alphabet.getD n 'A'

/-- Standard padded base64 encoding (Node's `Buffer.toString('base64')`). -/
def base64Encode : List Nat → List Char
  | b0 :: b1 :: b2 :: rest =>
      let w := b0 * 65536 + b1 * 256 + b2
      b64Char (w / 262144) :: b64Char (w / 4096 % 64) ::
        b64Char (w / 64 % 64) :: b64Char (w % 64) :: base64Encode rest
  | [b0, b1] =>
      let w := b0 * 65536 + b1 * 256
      [b64Char (w / 262144), b64Char (w / 4096 % 64), b64Char (w / 64 % 64), '=']
  | [b0] =>
      let w := b0 * 65536
      [b64Char (w / 262144), b64Char (w / 4096 % 64), '=', '=']
  | [] => []

/-- Index of a character in the base64 alphabet (0 for characters outside
it, matching Node's lenient decoder on the valid inputs at issue). -/
def b64Val (c : Char) : Nat :=
  if 'A' ≤ c ∧ c ≤ 'Z' then c.toNat - 'A'.toNat
  else if 'a' ≤ c ∧ c ≤ 'z' then c.toNat - 'a'.toNat + 26
  else if '0' ≤ c ∧ c ≤ '9' then c.toNat - '0'.toNat + 52
  else if c = '+' then 62
  else if c = '/' then 63
  else 0

/-- Standard base64 decoding of groups of four digits, honoring `=`
padding (Node's `Buffer.from(_, 'base64')` on well-formed input). -/
def base64Decode : List Char → List Nat
  | c0 :: c1 :: c2 :: c3 :: rest =>
      if c2 = '=' then [(b64Val c0 * 262144 + b64Val c1 * 4096) / 65536]
      else if c3 = '=' then
        let w := b64Val c0 * 262144 + b64Val c1 * 4096 + b64Val c2 * 64
        [w / 65536, w / 256 % 256]
      else
        let w := b64Val c0 * 262144 + b64Val c1 * 4096 + b64Val c2 * 64 + b64Val c3
        w / 65536 :: w / 256 % 256 :: w % 256 :: base64Decode rest
  | _ => []

/-- JavaScript `String.prototype.trim` over the character list. -/
def jsTrim (cs : List Char) : List Char :=
  ((cs.dropWhile Char.isWhitespace).reverse.dropWhile Char.isWhitespace).reverse

/-- `fromPgBytea` of `pg-bytea.ts`: byte arrays pass through; strings are
trimmed, then decoded as `\x`-prefixed hex, else as base64. -/
def fromPgBytea (value : PgByteaValue) : Except String (List Nat) :=
  match value with
  | .uint8Array bytes => .ok bytes
  | .numberArray bytes => .ok bytes
  | .str s =>
      match jsTrim s.toList with
      | '\\' :: 'x' :: rest => .ok (hexToBytes rest)
      | '\\' :: 'X' :: rest => .ok (hexToBytes rest)
      | cs => .ok (base64Decode cs)

/-! ## Normalizer — `src/lib/firi/normalize.ts`

JavaScript numbers are `Rat`; optional payload fields are `Option`.
Payload identifier fields (`match_id`, `deposit_id`, …, which the source
passes through `String(·)`) are modelled as already-stringified.  The
`amount`/`price` fields are modelled as already-numeric (`Option Rat`): the
claims under verification quantify over numeric payloads, where JavaScript
`Number(v)` is the identity and always finite. -/

/-- The `txn_type` enumeration of `NormalizedInsert`. -/
inductive TxnType where
  | buy | sell | deposit | withdrawal | send | transfer | staking
  | bonus | fee | rebate | trade_match
  deriving Repr, DecidableEq, Inhabited

/-- `MarketInfo` (base/quote of one market). -/
structure MarketInfo where
  base : String
  quote : String
  deriving Repr, DecidableEq, Inhabited

/-- The `details` sub-object of a Firi transaction payload. -/
structure PayloadDetails where
  match_id : Option String
  withdraw_id : Option String
  withdraw_txid : Option String
  deposit_id : Option String
  deposit_txid : Option String
  deriving Repr, DecidableEq, Inhabited

/-- The payload fields `normalizeFiri` reads. -/
structure Payload where
  currency : Option String
  amount : Option Rat
  transaction_hash : Option String
  details : Option PayloadDetails
  type : Option String
  side : Option String
  price : Option Rat
  id : Option String
  order_id : Option String
  marketInfo : Option MarketInfo
  deriving Repr, DecidableEq, Inhabited

/-- `RawRow` of `normalize.ts`. -/
structure RawRow where
  id : Nat
  kind : String
  payload : Payload
  occurred_at : Option String
  deriving Repr, DecidableEq, Inhabited

/-- `NormalizedInsert` without `user_id`/`connection_id` (added at the call
site), exactly as `normalizeFiri` emits it. -/
structure NRow where
  source_raw_id : Nat
  txn_type : TxnType
  base_asset : Option String
  base_amount : Option Rat
  quote_asset : Option String
  quote_amount : Option Rat
  fee_asset : Option String
  fee_amount : Option Rat
  price : Option Rat
  txid : Option String
  order_id : Option String
  occurred_at : String
  metadata : Payload
  deriving Repr, DecidableEq, Inhabited

/-- `numOrNull` restricted to already-numeric input (on a number `v`,
`Number(v)` is the identity and `Number.isFinite` holds). -/
def numOrNull (v : Option Rat) : Option Rat := v

/-- `absNum`: absolute value of `numOrNull`. -/
def absNum (v : Option Rat) : Option Rat := (numOrNull v).map (|·|)

/-- JavaScript truthiness of `x ? String(x) : null` for a nullable string:
`null`/`undefined` and `''` are falsy. -/
def jsTruthyStr : Option String → Option String
  | some s => if s = "" then none else some s
  | none => none

/-- Whether a nullable string is JavaScript-falsy (`null`/`undefined`/`''`). -/
def jsFalsyStr : Option String → Bool
  | some s => s = ""
  | none => true

/-- `new Date(ts).toISOString()`: a pure re-rendering of a timestamp
string, modelled as the identity on the (already ISO) stored timestamps. -/
def isoReparse (s : String) : String := s

/-- JavaScript `String.prototype.toLowerCase`, on the ASCII payload tags the
source lowercases (`type`, `side`). -/
def jsToLower (s : String) : String := String.mk (s.toList.map Char.toLower)

/-- JavaScript `Map.get` / keyed object access over an insertion-ordered
association list. -/
def mapLookup {α : Type} : List (String × α) → String → Option α
  | [], _ => none
  | kv :: rest, k => if kv.1 = k then some kv.2 else mapLookup rest k

/-- `when` of `normalize.ts`: the stored timestamp when truthy, otherwise
`new Date().toISOString()` — the current wall clock, passed in explicitly
as `now`. -/
def «when» (ts : Option String) (now : String) : String :=
  match ts with
  | some s => if s = "" then now else isoReparse s
  | none => now

/-- `normalizeFiri`: map one raw row to at most one normalized insert.
`now` is the wall-clock string `new Date().toISOString()` would produce. -/
def normalizeFiri (now : String) (raw : RawRow) : Option NRow :=
  let p := raw.payload
  let occurred := «when» raw.occurred_at now
  if raw.kind = "deposit" then
    some { source_raw_id := raw.id, txn_type := .deposit,
           base_asset := p.currency, base_amount := absNum p.amount,
           quote_asset := none, quote_amount := none,
           fee_asset := none, fee_amount := none, price := none,
           txid := p.transaction_hash, order_id := none,
           occurred_at := occurred, metadata := p }
  else if raw.kind = "history.transaction" then
    let details := p.details.getD default
    match details.match_id with
    | some mid =>
        some { source_raw_id := raw.id, txn_type := .trade_match,
               base_asset := none, base_amount := none,
               quote_asset := none, quote_amount := none,
               fee_asset := none, fee_amount := none, price := none,
               txid := none, order_id := some mid,
               occurred_at := occurred, metadata := p }
    | none =>
      match details.withdraw_id with
      | some _ =>
          some { source_raw_id := raw.id, txn_type := .withdrawal,
                 base_asset := p.currency,
                 base_amount := (absNum p.amount).map (fun n => -n),
                 quote_asset := none, quote_amount := none,
                 fee_asset := none, fee_amount := none, price := none,
                 txid := details.withdraw_txid, order_id := none,
                 occurred_at := occurred, metadata := p }
      | none =>
        match details.deposit_id with
        | some _ =>
            some { source_raw_id := raw.id, txn_type := .deposit,
                   base_asset := p.currency, base_amount := absNum p.amount,
                   quote_asset := none, quote_amount := none,
                   fee_asset := none, fee_amount := none, price := none,
                   txid := details.deposit_txid, order_id := none,
                   occurred_at := occurred, metadata := p }
        | none =>
          let t := jsToLower (p.type.getD "")
          if t = "fee" then
            let amt := absNum p.amount
            some { source_raw_id := raw.id, txn_type := .fee,
                   base_asset := p.currency,
                   base_amount := amt.map (fun n => -n),
                   quote_asset := none, quote_amount := none,
                   fee_asset := p.currency, fee_amount := amt, price := none,
                   txid := none, order_id := jsTruthyStr p.order_id,
                   occurred_at := occurred, metadata := p }
          else if t = "bonus" then
            some { source_raw_id := raw.id, txn_type := .bonus,
                   base_asset := p.currency, base_amount := absNum p.amount,
                   quote_asset := none, quote_amount := none,
                   fee_asset := none, fee_amount := none, price := none,
                   txid := none, order_id := jsTruthyStr p.order_id,
                   occurred_at := occurred, metadata := p }
          else if t = "rebate" then
            some { source_raw_id := raw.id, txn_type := .rebate,
                   base_asset := p.currency, base_amount := absNum p.amount,
                   quote_asset := none, quote_amount := none,
                   fee_asset := none, fee_amount := none, price := none,
                   txid := none, order_id := jsTruthyStr p.order_id,
                   occurred_at := occurred, metadata := p }
          else none
  else if raw.kind = "order" then
    let side := jsToLower (p.side.getD "")
    let price := numOrNull p.price
    let amount := numOrNull p.amount
    let base := p.marketInfo.map (·.base)
    let quote := p.marketInfo.map (·.quote)
    let isBuy := side = "bid"
    some { source_raw_id := raw.id,
           txn_type := if isBuy then .buy else .sell,
           base_asset := base,
           base_amount := amount.map (fun a => if isBuy then |a| else -|a|),
           quote_asset := quote,
           quote_amount :=
             match amount, price with
             | some a, some pr => some (if isBuy then -|a * pr| else |a * pr|)
             | _, _ => none,
           fee_asset := quote, fee_amount := none,
           price := price, txid := none,
           order_id := p.id,
           occurred_at := «when» raw.occurred_at now, metadata := p }
  else none

/-! ### Enrichment — `enrichTradeMatches` -/

/-- `OrderWithMarket` of `normalize.ts` (`price`/`amount` are plain
numbers per its TypeScript type). -/
structure OrderWithMarket where
  id : String
  side : String
  market : String
  price : Rat
  amount : Rat
  marketInfo : Option MarketInfo
  deriving Repr, DecidableEq, Inhabited

/-- JavaScript `Map.set`: overwrite in place when the key exists (keeping
its original insertion position), else append. -/
def mapSet (m : List (String × OrderWithMarket)) (k : String) (v : OrderWithMarket) :
    List (String × OrderWithMarket) :=
  if (mapLookup m k).isSome then
    m.map (fun kv => if kv.1 = k then (k, v) else kv)
  else m ++ [(k, v)]

/-- The `byOrderId` map of `enrichTradeMatches`: orders keyed by id,
skipping falsy ids, with market info resolved from `_marketInfo` or the
market directory. -/
def buildByOrderId (orders : List OrderWithMarket)
    (markets : String → Option MarketInfo) : List (String × OrderWithMarket) :=
  orders.foldl
    (fun acc o =>
      if o.id = "" then acc
      else
        let m := match o.marketInfo with
                 | some mi => some mi
                 | none => if o.market = "" then none else markets o.market
        mapSet acc o.id { o with marketInfo := m })
    []

/-- The body of the `tradeMatches.map` of `enrichTradeMatches`: resolve one
`trade_match` row against the `byOrderId` map; unresolvable rows pass
through unchanged. -/
def enrichOne (byOrderId : List (String × OrderWithMarket)) (trade : NRow) : NRow :=
  if trade.txn_type ≠ .trade_match then trade
  else
    match jsTruthyStr trade.order_id with
    | none => trade
    | some oid =>
      match mapLookup byOrderId oid with
      | none => trade
      | some order =>
        match order.marketInfo with
        | none => trade
        | some mi =>
          let isBuy := order.side = "bid"
          let amt := ((absNum (some order.amount)).getD 0)
          let price := numOrNull (some order.price)
          let quoteAmt := price.map (fun pr => amt * pr)
          { trade with
            base_asset := some mi.base,
            base_amount := some (if isBuy then amt else -amt),
            quote_asset := some mi.quote,
            quote_amount :=
              match quoteAmt with
              | none => trade.quote_amount
              | some q => some (if isBuy then -q else q),
            price := match price with
                     | some pr => some pr
                     | none => trade.price }

/-- `enrichTradeMatches`: resolve `trade_match` rows against the order set
and market directory; unresolvable rows pass through unchanged. -/
def enrichTradeMatches (tradeMatches : List NRow) (orders : List OrderWithMarket)
    (markets : String → Option MarketInfo) : List NRow :=
  tradeMatches.map (enrichOne (buildByOrderId orders markets))

/-! ### Fee merging — `mergeFees` -/

/-- One entry of the `groups` map: trade-like and fee row indices. -/
structure FeeGroup where
  tradeIdxs : List Nat
  feeIdxs : List Nat
  deriving Repr, DecidableEq, Inhabited

/-- Trade-like row types (`trade_match`/`buy`/`sell`). -/
def isTradeLike (t : TxnType) : Bool :=
  match t with
  | .trade_match => true
  | .buy => true
  | .sell => true
  | _ => false

/-- Update the value at a key of the groups map, in place. -/
def updateGroup (groups : List (String × FeeGroup)) (k : String)
    (f : FeeGroup → FeeGroup) : List (String × FeeGroup) :=
  groups.map (fun kv => if kv.1 = k then (k, f kv.2) else kv)

/-- One step of the `groups`-building `forEach` of `mergeFees`: skip falsy
`order_id`, create the group on first sight, then record the index under
`feeIdxs` or `tradeIdxs` by row type. -/
def groupStep (groups : List (String × FeeGroup)) (idx : Nat) (tx : NRow) :
    List (String × FeeGroup) :=
  match jsTruthyStr tx.order_id with
  | none => groups
  | some oid =>
    let groups' := if (mapLookup groups oid).isSome then groups
                   else groups ++ [(oid, ⟨[], []⟩)]
    if tx.txn_type = .fee then
      updateGroup groups' oid (fun g => { g with feeIdxs := g.feeIdxs ++ [idx] })
    else if isTradeLike tx.txn_type then
      updateGroup groups' oid (fun g => { g with tradeIdxs := g.tradeIdxs ++ [idx] })
    else groups'

/-- The complete `groups` map of `mergeFees`, in JavaScript `Map` insertion
order. -/
def buildGroups (rows : List NRow) : List (String × FeeGroup) :=
  rows.enum.foldl (fun acc p => groupStep acc p.1 p.2) []

/-- The fee-collecting inner `forEach`: accumulate the fee total (explicit
`fee_amount`, else `abs(base_amount)`, else 0) and promote the first truthy
fee asset when the running one is falsy. -/
def feeFold (result : List NRow) (feeIdxs : List Nat) (feeAsset0 : Option String) :
    Rat × Option String :=
  feeIdxs.foldl
    (fun acc fi =>
      let f := result.getD fi default
      let explicit := numOrNull f.fee_amount
      let derived := f.base_amount.map (|·|)
      let add := ((explicit <|> derived).getD 0)
      (acc.1 + add,
       if jsFalsyStr acc.2 ∧ ¬ jsFalsyStr f.fee_asset then f.fee_asset else acc.2))
    (0, feeAsset0)

/-- The per-group merging `forEach` of `mergeFees`: returns the updated row
array and the accumulated `toRemove` index list. -/
def mergePass (rows : List NRow) (groups : List (String × FeeGroup)) :
    List NRow × List Nat :=
  groups.foldl
    (fun acc kg =>
      let g := kg.2
      match g.tradeIdxs with
      | [] => acc
      | mainIdx :: _ =>
        if g.feeIdxs = [] then acc
        else
          let main := acc.1.getD mainIdx default
          let feeAsset0 := main.fee_asset <|> main.quote_asset
          let ft := feeFold acc.1 g.feeIdxs feeAsset0
          (acc.1.set mainIdx
             { main with fee_asset := ft.2,
                         fee_amount := some (((numOrNull main.fee_amount).getD 0) + ft.1) },
           acc.2 ++ g.feeIdxs))
    (rows, [])

/-- Insert into a descending-sorted list (the `sort((a, b) => b - a)`). -/
def insertDesc (n : Nat) : List Nat → List Nat
  | [] => [n]
  | m :: rest => if n ≥ m then n :: m :: rest else m :: insertDesc n rest

/-- Sort descending. -/
def sortDesc (l : List Nat) : List Nat := l.foldr insertDesc []

/-- The final splice loop: delete each index (already sorted descending),
guarded against out-of-range indices. -/
def removeIdxs (rows : List NRow) (idxs : List Nat) : List NRow :=
  idxs.foldl (fun acc idx => if idx < acc.length then acc.eraseIdx idx else acc) rows

/-- `mergeFees` of `normalize.ts` (its unused `_rawTransactions` argument
is dropped): group rows by truthy `order_id`, fold the fee rows of every
group that also holds a trade-like row into that group's first trade row,
then splice the absorbed fee rows out. -/
def mergeFees (normalized : List NRow) : List NRow :=
  let groups := buildGroups normalized
  let rt := mergePass normalized groups
  removeIdxs rt.1 (sortDesc rt.2)

/-! ## Sync manager pagination — `src/lib/firi/sync.ts`

The three streams share one loop shape (`syncTransactions` /
`syncDeposits` / `syncOrders` driven by `syncAll`); the model captures it
once, over an abstract exchange `resp : Nat → List PageRec` giving the
page returned to the n-th request.  Wall-clock `lastSyncAt` stamps are the
explicit `now` string. -/

/-- One raw record of a page, as the pagination loop sees it (`id` is read
for the cursor via `id?.toString() || null`). -/
structure PageRec where
  id : Option String
  deriving Repr, DecidableEq, Inhabited

/-- A per-stream cursor. -/
structure StreamCursor where
  page : Nat
  lastId : Option String
  hasMore : Bool
  lastSyncAt : String
  deriving Repr, DecidableEq, Inhabited

/-- The per-stream sync options (defaults: batchSize 500, maxPages 1000). -/
structure SyncOptionsM where
  batchSize : Nat
  maxPages : Nat
  deriving Repr, DecidableEq

/-- One `syncTransactions`-style call, given the page the exchange
returned: early return when the cursor is exhausted or the page ceiling is
reached; an empty page closes the cursor; otherwise advance `page`,
`lastId`, and `hasMore := (length == batchSize)`.  Returns
`(data, cursor, hasMore)`. -/
def syncPageStep (opts : SyncOptionsM) (cursor : StreamCursor)
    (response : List PageRec) (now : String) :
    List PageRec × StreamCursor × Bool :=
  if ¬ cursor.hasMore ∨ cursor.page ≥ opts.maxPages then
    ([], { cursor with hasMore := false }, false)
  else if response.length = 0 then
    ([], { cursor with hasMore := false, page := cursor.page + 1 }, false)
  else
    let newCursor : StreamCursor :=
      { page := cursor.page + 1,
        lastId := response.getLast?.bind (fun r => jsTruthyStr r.id),
        hasMore := response.length = opts.batchSize,
        lastSyncAt := now }
    (response, newCursor, newCursor.hasMore)

/-- The `syncAll` per-stream `while` loop: while `hasMore` and below the
page ceiling, fetch the next page (the n-th request receives `resp n`),
append its records, advance the cursor, and stop on a short page.  `fuel`
bounds the recursion; the loop advances `page` every iteration, so
`maxPages + 1` fuel always suffices. -/
def syncLoop (opts : SyncOptionsM) (resp : Nat → List PageRec) (now : String) :
    Nat → StreamCursor → List PageRec → Nat → StreamCursor × List PageRec × Nat
  | 0, cursor, acc, calls => (cursor, acc, calls)
  | fuel + 1, cursor, acc, calls =>
    if cursor.hasMore ∧ cursor.page < opts.maxPages then
      let r := syncPageStep opts cursor (resp calls) now
      if r.2.2 then syncLoop opts resp now fuel r.2.1 (acc ++ r.1) (calls + 1)
      else (r.2.1, acc ++ r.1, calls + 1)
    else (cursor, acc, calls)

/-- Run one stream's pagination from the fresh default cursor
(`page 0, lastId null, hasMore true`), as `syncAll` does; returns the
final cursor, the accumulated records, and the number of page requests. -/
def runSyncStream (opts : SyncOptionsM) (resp : Nat → List PageRec)
    (now : String) : StreamCursor × List PageRec × Nat :=
  syncLoop opts resp now (opts.maxPages + 1)
    { page := 0, lastId := none, hasMore := true, lastSyncAt := now } [] 0

/-! ## Specification-level functions for the fee merge

These re-express, directly from the claim's vocabulary, the quantities
`mergeFees` computes, so that the theorems below can compare the folds of
the source against explicit formulas. -/

/-- The magnitude one fee row contributes: its explicit `fee_amount` when
present, else the absolute `base_amount`, else 0. -/
def feeMag (r : NRow) : Rat := ((numOrNull r.fee_amount) <|> (r.base_amount.map (|·|))).getD 0

/-- The total fee contributed by the rows at `idxs`. -/
def feeSum (rows : List NRow) (idxs : List Nat) : Rat :=
  (idxs.map (fun fi => feeMag (rows.getD fi default))).sum

/-- The first truthy (non-null, non-empty) `fee_asset` among the rows at
`idxs`, if any. -/
def firstTruthyAsset (rows : List NRow) : List Nat → Option String
  | [] => none
  | fi :: rest =>
    if jsFalsyStr (rows.getD fi default).fee_asset then firstTruthyAsset rows rest
    else (rows.getD fi default).fee_asset

/-- The fee asset the merge settles on, starting from `a0` (the trade
row's own `fee_asset ?? quote_asset`): `a0` when truthy, else the first
truthy fee asset of the group's fee rows, else `a0`. -/
def assetCombine (rows : List NRow) (a0 : Option String) (idxs : List Nat) : Option String :=
  if jsFalsyStr a0 then firstTruthyAsset rows idxs <|> a0 else a0

/-- The value the merge writes over the group's first trade row. -/
def mergedRow (rows : List NRow) (g : FeeGroup) (i0 : Nat) : NRow :=
  let main := rows.getD i0 default
  { main with
    fee_asset := assetCombine rows (main.fee_asset <|> main.quote_asset) g.feeIdxs,
    fee_amount := some (((numOrNull main.fee_amount).getD 0) + feeSum rows g.feeIdxs) }

/-- A group both trade-like and fee rows of which exist, so the merge
fires on it. -/
def qualGroup (g : FeeGroup) : Prop := g.tradeIdxs ≠ [] ∧ g.feeIdxs ≠ []

/-- Drop the elements whose (absolute) position, counted from `k`, lies in
`blocked`. -/
def dropIdxsFrom {α : Type} (blocked : List Nat) : Nat → List α → List α
  | _, [] => []
  | k, x :: xs =>
    if k ∈ blocked then dropIdxsFrom blocked (k + 1) xs
    else x :: dropIdxsFrom blocked (k + 1) xs

/-- The head indices of the qualifying groups among `groups` — the
positions the merge pass overwrites. -/
def mergedHeads (groups : List (String × FeeGroup)) : List Nat :=
  groups.filterMap (fun kg =>
    match kg.2.tradeIdxs with
    | [] => none
    | i0 :: _ => if kg.2.feeIdxs = [] then none else some i0)

/-- The `GroupsInv rows n groups` invariant: what the first `n` rows have
contributed to the `groups` map — sound, complete, with distinct keys and
strictly increasing index lists. -/
def GroupsInv (rows : List NRow) (n : Nat) (groups : List (String × FeeGroup)) : Prop :=
  (groups.map Prod.fst).Nodup ∧
  (∀ oid g, mapLookup groups oid = some g →
    (∀ i ∈ g.tradeIdxs, i < n ∧ i < rows.length ∧
       isTradeLike (rows.getD i default).txn_type = true ∧
       jsTruthyStr (rows.getD i default).order_id = some oid) ∧
    (∀ i ∈ g.feeIdxs, i < n ∧ i < rows.length ∧
       (rows.getD i default).txn_type = .fee ∧
       jsTruthyStr (rows.getD i default).order_id = some oid) ∧
    g.tradeIdxs.Pairwise (· < ·) ∧ g.feeIdxs.Pairwise (· < ·)) ∧
  (∀ i, i < n → i < rows.length →
    ∀ oid, jsTruthyStr (rows.getD i default).order_id = some oid →
      ((rows.getD i default).txn_type = .fee →
        ∃ g, mapLookup groups oid = some g ∧ i ∈ g.feeIdxs) ∧
      (isTradeLike (rows.getD i default).txn_type = true →
        ∃ g, mapLookup groups oid = some g ∧ i ∈ g.tradeIdxs))

/-- The indices the merge pass removes: the fee indices of every
qualifying group, in group order. -/
def mergedFeeIdxs (groups : List (String × FeeGroup)) : List Nat :=
  (groups.map (fun kg =>
    match kg.2.tradeIdxs with
    | [] => []
    | _ :: _ => if kg.2.feeIdxs = [] then [] else kg.2.feeIdxs)).flatten

/-- One group entry is sound for `rows`: every recorded index is in range
and points at a row of the registered kind whose truthy `order_id` is the
entry's key. -/
def SoundEntry (rows : List NRow) (oid : String) (g : FeeGroup) : Prop :=
  (∀ i ∈ g.tradeIdxs, i < rows.length ∧
     isTradeLike (rows.getD i default).txn_type = true ∧
     jsTruthyStr (rows.getD i default).order_id = some oid) ∧
  (∀ i ∈ g.feeIdxs, i < rows.length ∧
     (rows.getD i default).txn_type = .fee ∧
     jsTruthyStr (rows.getD i default).order_id = some oid)

/-- The step function of the per-group merging fold, named so the fold of
`mergePass` can be reasoned about one group at a time (definitionally the
lambda of `mergePass`). -/
def mergeStep (acc : List NRow × List Nat) (kg : String × FeeGroup) :
    List NRow × List Nat :=
  let g := kg.2
  match g.tradeIdxs with
  | [] => acc
  | mainIdx :: _ =>
    if g.feeIdxs = [] then acc
    else
      let main := acc.1.getD mainIdx default
      let feeAsset0 := main.fee_asset <|> main.quote_asset
      let ft := feeFold acc.1 g.feeIdxs feeAsset0
      (acc.1.set mainIdx
         { main with fee_asset := ft.2,
                     fee_amount := some (((numOrNull main.fee_amount).getD 0) + ft.1) },
       acc.2 ++ g.feeIdxs)

/-- An empty payload record, for building concrete normalized rows. -/
def emptyPayload : Payload :=
  { currency := none, amount := none, transaction_hash := none,
    details := none, type := none, side := none, price := none,
    id := none, order_id := none, marketInfo := none }

/-- A concrete trade row in the shape of claim C6's example: truthy
`order_id`, no explicit fee fields, `quote_asset` present. -/
def c6trade : NRow :=
  { source_raw_id := 1, txn_type := .trade_match,
    base_asset := some "ETH", base_amount := some 2,
    quote_asset := some "BTC", quote_amount := some (-200),
    fee_asset := none, fee_amount := none, price := some 100,
    txid := none, order_id := some "X",
    occurred_at := "2024-01-01T00:00:00.000Z", metadata := emptyPayload }

/-- A raw deposit record with no stored timestamp (`occurred_at` null),
so `when` falls back to the wall clock. -/
def c9raw : RawRow :=
  { id := 3, kind := "deposit",
    payload := { currency := some "BTC", amount := some 1, transaction_hash := none,
                 details := none, type := none, side := none, price := none,
                 id := none, order_id := none, marketInfo := none },
    occurred_at := none }

/-- A concrete standalone fee row for the same order id. -/
def c6fee : NRow :=
  { source_raw_id := 2, txn_type := .fee,
    base_asset := some "NOK", base_amount := some (-(1/2 : Rat)),
    quote_asset := none, quote_amount := none,
    fee_asset := some "NOK", fee_amount := some (1/2), price := none,
    txid := none, order_id := some "X",
    occurred_at := "2024-01-01T00:00:01.000Z", metadata := emptyPayload }

/-! # Theorems -/

/-! ## Digest shape lemmas -/

theorem compressBlock_length (st block : List Nat) : (compressBlock st block).length = 8 := rfl

theorem foldl_compressBlock_length (l : List (List Nat)) (st : List Nat)
    (hst : st.length = 8) : (l.foldl compressBlock st).length = 8 := by
  induction l generalizing st with
  | nil => simpa using hst
  | cons c cs ih => exact ih (compressBlock st c) (compressBlock_length st c)

theorem flatten_map_be32_length (st : List Nat) :
    ((st.map be32).flatten).length = 4 * st.length := by
  induction st with
  | nil => simp
  | cons w ws ih =>
    simp only [List.map_cons, List.flatten_cons, List.length_append, ih, List.length_cons]
    simp [be32]
    ring

theorem sha256_length (msg : List Nat) : (sha256 msg).length = 32 := by
  unfold sha256
  rw [flatten_map_be32_length, foldl_compressBlock_length]
  rfl

theorem be32_mem_lt (w : Nat) : ∀ b ∈ be32 w, b < 256 := by
  intro b hb
  have h255 : ∀ x : Nat, x &&& 255 < 256 := fun x =>
    Nat.lt_succ_of_le (Nat.and_le_right)
  simp only [be32, List.mem_cons, List.not_mem_nil, or_false] at hb
  rcases hb with h | h | h | h <;> (subst h; exact h255 _)

theorem sha256_mem_lt (msg : List Nat) : ∀ b ∈ sha256 msg, b < 256 := by
  intro b hb
  unfold sha256 at hb
  rw [List.mem_flatten] at hb
  obtain ⟨l, hl, hbl⟩ := hb
  rw [List.mem_map] at hl
  obtain ⟨w, _, hw⟩ := hl
  exact be32_mem_lt w b (hw ▸ hbl)

theorem hmacSha256_length (key msg : List Nat) : (hmacSha256 key msg).length = 32 :=
  sha256_length _

theorem hmacSha256_mem_lt (key msg : List Nat) : ∀ b ∈ hmacSha256 key msg, b < 256 :=
  sha256_mem_lt _

theorem hexOfBytes_length (bs : List Nat) : (hexOfBytes bs).length = 2 * bs.length := by
  induction bs with
  | nil => simp [hexOfBytes]
  | cons b rest ih =>
    simp only [hexOfBytes, List.map_cons, List.flatten_cons, List.length_append] at ih ⊢
    simp [byteToHex, ih]
    ring

theorem hexChar_mem (n : Nat) (hn : n < 16) : hexChar n ∈ hexAlphabet := by
  have h16 : hexAlphabet.length = 16 := by decide
  have hlen : n < hexAlphabet.length := by omega
  rw [hexChar, List.getD_eq_getElem hexAlphabet '0' hlen]
  exact List.getElem_mem hlen

theorem hexOfBytes_mem (bs : List Nat) (hbs : ∀ b ∈ bs, b < 256) :
    ∀ c ∈ hexOfBytes bs, c ∈ hexAlphabet := by
  intro c hc
  rw [hexOfBytes, List.mem_flatten] at hc
  obtain ⟨l, hl, hcl⟩ := hc
  rw [List.mem_map] at hl
  obtain ⟨b, hb, hbl⟩ := hl
  have hblt : b < 256 := hbs b hb
  subst hbl
  simp only [byteToHex, List.mem_cons, List.not_mem_nil, or_false] at hcl
  rcases hcl with h | h
  · subst h
    exact hexChar_mem _ (Nat.div_lt_of_lt_mul (by omega))
  · subst h
    exact hexChar_mem _ (Nat.mod_lt _ (by omega))

theorem string_mk_toList (l : List Char) : (String.mk l).toList = l := rfl

theorem hmacSha256Hex_toList (key msg : String) :
    (hmacSha256Hex key msg).toList = hexOfBytes (hmacSha256 (utf8Bytes key) (utf8Bytes msg)) :=
  string_mk_toList _

theorem hmacSha256Hex_length (key msg : String) :
    (hmacSha256Hex key msg).toList.length = 64 := by
  rw [hmacSha256Hex_toList, hexOfBytes_length, hmacSha256_length]

theorem hmacSha256Hex_mem (key msg : String) :
    ∀ c ∈ (hmacSha256Hex key msg).toList, c ∈ hexAlphabet := by
  rw [hmacSha256Hex_toList]
  exact hexOfBytes_mem _ (hmacSha256_mem_lt _ _)

/-! ## Signing: evaluation of `makeFiriHeaders` on valid input -/

theorem makeFiriHeaders_ok_eq (creds : FiriCreds) (t v : Nat)
    (hak : creds.apiKey ≠ "") (hcid : creds.clientId ≠ "") (hsec : creds.secretPlain ≠ "")
    (ht : 0 < t) (hv1 : 1 ≤ v) (hv2 : v ≤ 3600) :
    makeFiriHeaders creds t v =
      .ok { firiAccessKey := creds.apiKey,
            firiUserClientid := creds.clientId,
            firiUserSignature := hmacSha256Hex creds.secretPlain
              (signingPayload (toString t) (toString v)) } := by
  unfold makeFiriHeaders
  rw [if_neg, if_neg, if_neg]
  · omega
  · omega
  · push_neg
    exact ⟨hak, hcid, hsec⟩

/-! ## C1 — signing payload convention -/

/-- **C1, counterexample.**  The claim says the signature is the
HMAC-SHA256 of the bare concatenation `"164099520030"`; the code signs the
JSON envelope `{"timestamp":"1640995200","validity":"30"}`, and at the
claim's own example input (secret `"S"`, `t = 1640995200`, `v = 30`) the
two digests differ. -/
theorem C1_counterexample :
    (makeFiriHeaders ⟨"AK", "CID", "S"⟩ 1640995200 30).map (fun h => h.firiUserSignature) =
      Except.ok (hmacSha256Hex "S"
        "\x7b\"timestamp\":\"1640995200\",\"validity\":\"30\"\x7d") ∧
    hmacSha256Hex "S" "\x7b\"timestamp\":\"1640995200\",\"validity\":\"30\"\x7d" ≠
      hmacSha256Hex "S" "164099520030" := by
  constructor
  · rfl
  · decide

/-- **C1** (amended): for every credential set with non-empty fields, every
positive server time `t`, and validity `1 ≤ v ≤ 3600`, `makeFiriHeaders`
succeeds and its signature is the lowercase 64-character hex HMAC-SHA256
digest, under key `secretPlain`, of the JSON envelope
`{"timestamp":"<t>","validity":"<v>"}` built from the decimal string forms
of `t` and `v` (not of their bare concatenation), with no request body. -/
theorem C1_signature_json_envelope (creds : FiriCreds) (t v : Nat)
    (hak : creds.apiKey ≠ "") (hcid : creds.clientId ≠ "") (hsec : creds.secretPlain ≠ "")
    (ht : 0 < t) (hv1 : 1 ≤ v) (hv2 : v ≤ 3600) :
    makeFiriHeaders creds t v =
      .ok { firiAccessKey := creds.apiKey,
            firiUserClientid := creds.clientId,
            firiUserSignature := hmacSha256Hex creds.secretPlain
              ("\x7b\"timestamp\":\"" ++ toString t ++ "\",\"validity\":\"" ++
                toString v ++ "\"\x7d") } ∧
    ∀ h, makeFiriHeaders creds t v = .ok h →
      h.firiUserSignature.toList.length = 64 ∧
      ∀ c ∈ h.firiUserSignature.toList, c ∈ hexAlphabet := by
  have hok := makeFiriHeaders_ok_eq creds t v hak hcid hsec ht hv1 hv2
  constructor
  · simpa [signingPayload] using hok
  · intro h hh
    rw [hok] at hh
    cases hh
    exact ⟨hmacSha256Hex_length _ _, hmacSha256Hex_mem _ _⟩

/-- **C1, witness**: the amended theorem applied at the claim's example
input. -/
theorem C1_signature_json_envelope_witness :
    makeFiriHeaders ⟨"AK", "CID", "S"⟩ 1640995200 30 =
      .ok { firiAccessKey := "AK", firiUserClientid := "CID",
            firiUserSignature := hmacSha256Hex "S"
              ("\x7b\"timestamp\":\"" ++ toString (1640995200 : Nat) ++ "\",\"validity\":\"" ++
                toString (30 : Nat) ++ "\"\x7d") } ∧
    ∀ h, makeFiriHeaders ⟨"AK", "CID", "S"⟩ 1640995200 30 = .ok h →
      h.firiUserSignature.toList.length = 64 ∧
      ∀ c ∈ h.firiUserSignature.toList, c ∈ hexAlphabet :=
  C1_signature_json_envelope ⟨"AK", "CID", "S"⟩ 1640995200 30
    (by decide) (by decide) (by decide) (by decide) (by decide) (by decide)

/-! ## C3 — returned header fields -/

/-- **C3.**  The header object returned by `makeFiriHeaders` carries the
access key, client id, and signature — but no `timestamp` or `validity`
property, so the `headers.timestamp` / `headers.validity` reads that
`firiFetch` attaches to 401 diagnostics are `undefined`, not the defined
strings the claim (and `fetch.ts` itself) expects. -/
theorem C3_headers_lack_timestamp_validity (creds : FiriCreds) (t v : Nat)
    (hak : creds.apiKey ≠ "") (hcid : creds.clientId ≠ "") (hsec : creds.secretPlain ≠ "")
    (ht : 0 < t) (hv1 : 1 ≤ v) (hv2 : v ≤ 3600) :
    ∃ h, makeFiriHeaders creds t v = .ok h ∧
      headerProp h "firi-access-key" = some creds.apiKey ∧
      headerProp h "firi-user-clientid" = some creds.clientId ∧
      headerProp h "firi-user-signature" = some h.firiUserSignature ∧
      headerProp h "timestamp" = none ∧
      headerProp h "validity" = none ∧
      firiFetch401AuthDetails h = (none, none) := by
  refine ⟨_, makeFiriHeaders_ok_eq creds t v hak hcid hsec ht hv1 hv2, ?_, ?_, ?_, ?_, ?_, ?_⟩ <;>
    rfl

/-- **C3, witness**: the theorem applied at a concrete credential set. -/
theorem C3_headers_lack_timestamp_validity_witness :
    ∃ h, makeFiriHeaders ⟨"AK", "CID", "S"⟩ 1640995200 30 = .ok h ∧
      headerProp h "firi-access-key" = some "AK" ∧
      headerProp h "firi-user-clientid" = some "CID" ∧
      headerProp h "firi-user-signature" = some h.firiUserSignature ∧
      headerProp h "timestamp" = none ∧
      headerProp h "validity" = none ∧
      firiFetch401AuthDetails h = (none, none) :=
  C3_headers_lack_timestamp_validity ⟨"AK", "CID", "S"⟩ 1640995200 30
    (by decide) (by decide) (by decide) (by decide) (by decide) (by decide)

/-! ## Blob slicing lemmas for the secret cipher -/

theorem take_append_of_length (l₁ l₂ : List Nat) (n : Nat) (h : l₁.length = n) :
    (l₁ ++ l₂).take n = l₁ := by
  subst h; exact List.take_left l₁ l₂

theorem drop_append_of_length (l₁ l₂ : List Nat) (n : Nat) (h : l₁.length = n) :
    (l₁ ++ l₂).drop n = l₂ := by
  subst h; exact List.drop_left l₁ l₂

theorem blob_slices (iv tag ct : List Nat) (hiv : iv.length = 12) (htag : tag.length = 16) :
    (iv ++ tag ++ ct).take 12 = iv ∧
    ((iv ++ tag ++ ct).drop 12).take 16 = tag ∧
    (iv ++ tag ++ ct).drop 28 = ct := by
  have hassoc : iv ++ tag ++ ct = iv ++ (tag ++ ct) := List.append_assoc iv tag ct
  have hdrop12 : (iv ++ tag ++ ct).drop 12 = tag ++ ct := by
    rw [hassoc]; exact drop_append_of_length iv (tag ++ ct) 12 hiv
  refine ⟨?_, ?_, ?_⟩
  · rw [hassoc]; exact take_append_of_length iv (tag ++ ct) 12 hiv
  · rw [hdrop12]; exact take_append_of_length tag ct 16 htag
  · have h2812 : ((iv ++ tag ++ ct).drop 12).drop 16 = (iv ++ tag ++ ct).drop 28 := by
      rw [List.drop_drop]
    rw [← h2812, hdrop12]
    exact drop_append_of_length tag ct 16 htag

/-! ## C2 — encrypt/decrypt round-trip -/

/-- **C2, counterexample.**  At the empty plaintext the round-trip fails in
both source variants: variant 2's `encryptSecret` rejects `''` outright,
and variant 1's `decryptSecret` rejects variant 1's own 28-byte encryption
of `''` at its `< 12 + 16 + 1` length gate. -/
theorem C2_counterexample :
    encryptSecretV2 witnessCipherLib (List.replicate 12 0) "" =
      .error "Invalid input: plain must be a non-empty string" ∧
    decryptSecretV1 witnessCipherLib
        (encryptSecretV1 witnessCipherLib (List.replicate 12 0) "") =
      .error "Encrypted blob too short" := by
  constructor
  · rfl
  · rfl

/-- **C2** (amended): for every law-abiding AES-256-GCM/UTF-8 library and
every 12-byte IV, the round-trip `decryptSecret (encryptSecret p) = p`
holds for every **non-empty** UTF-8 plaintext `p`, in both variants, with
the `IV ‖ Tag(16) ‖ Ciphertext` layout; the empty string is rejected
(variant 2 at encryption, variant 1 at its 29-byte decryption gate). -/
theorem C2_roundtrip_nonempty (lib : CipherLib) (iv : List Nat) (p : String)
    (hiv : iv.length = 12) (hp : p ≠ "") :
    encryptSecretV1 lib iv p =
      iv ++ (lib.gcmEnc iv (lib.textEnc p)).2 ++ (lib.gcmEnc iv (lib.textEnc p)).1 ∧
    decryptSecretV1 lib (encryptSecretV1 lib iv p) = .ok p ∧
    ∀ blob, encryptSecretV2 lib iv p = .ok blob → decryptSecretV2 lib blob = .ok p := by
  set ct := (lib.gcmEnc iv (lib.textEnc p)).1 with hct
  set tag := (lib.gcmEnc iv (lib.textEnc p)).2 with htagdef
  have htag : tag.length = 16 := lib.gcm_tag_length iv (lib.textEnc p)
  have hctlen : ct.length = (lib.textEnc p).length := lib.gcm_ct_length iv (lib.textEnc p)
  have hctpos : 1 ≤ ct.length := by
    rw [hctlen]
    have : lib.textEnc p ≠ [] := fun hnil => hp ((lib.textEnc_nil_iff p).mp hnil)
    exact List.length_pos.mpr this
  have henc : encryptSecretV1 lib iv p = iv ++ tag ++ ct := rfl
  have hlen : (iv ++ tag ++ ct).length = 28 + ct.length := by
    simp only [List.length_append, hiv, htag]
  obtain ⟨hs1, hs2, hs3⟩ := blob_slices iv tag ct hiv htag
  have hdec : lib.gcmDec iv ct tag = some (lib.textEnc p) := lib.gcm_roundtrip iv (lib.textEnc p)
  refine ⟨henc, ?_, ?_⟩
  · rw [henc, decryptSecretV1, if_neg (by omega)]
    simp only [hs1, hs2, hs3, hdec]
    exact congrArg Except.ok (lib.text_roundtrip p)
  · intro blob hblob
    have hb : blob = iv ++ tag ++ ct := by
      rw [encryptSecretV2, if_neg hp] at hblob
      cases hblob
      rfl
    subst hb
    rw [decryptSecretV2, if_neg (by omega)]
    simp only [hs1, hs2, hs3, hdec, lib.text_roundtrip]

/-- **C2, witness**: the amended theorem applied to the concrete witness
library, a zero IV, and the plaintext `"secret"`. -/
theorem C2_roundtrip_nonempty_witness :
    encryptSecretV1 witnessCipherLib (List.replicate 12 0) "secret" =
      List.replicate 12 0 ++
        (witnessCipherLib.gcmEnc (List.replicate 12 0) (witnessCipherLib.textEnc "secret")).2 ++
        (witnessCipherLib.gcmEnc (List.replicate 12 0) (witnessCipherLib.textEnc "secret")).1 ∧
    decryptSecretV1 witnessCipherLib
        (encryptSecretV1 witnessCipherLib (List.replicate 12 0) "secret") = .ok "secret" ∧
    ∀ blob, encryptSecretV2 witnessCipherLib (List.replicate 12 0) "secret" = .ok blob →
      decryptSecretV2 witnessCipherLib blob = .ok "secret" :=
  C2_roundtrip_nonempty witnessCipherLib (List.replicate 12 0) "secret"
    (by simp) (by decide)

/-! ## C7 — decryption length gates -/

/-- **C7, counterexample.**  A 28-byte blob (the size of an IV, a tag, and
an empty ciphertext) **is** rejected purely for its length by variant 1's
`decryptSecret`, whose gate requires at least `12 + 16 + 1 = 29` bytes —
contradicting the claim that no input of 28 bytes or more is rejected
solely for length. -/
theorem C7_counterexample :
    (List.replicate 28 0).length = 28 ∧
    decryptSecretV1 witnessCipherLib (List.replicate 28 0) =
      .error "Encrypted blob too short" := by
  constructor
  · simp
  · rfl

/-- **C7** (amended): variant 2's `decryptSecret` raises its length error
exactly on inputs shorter than 28 bytes — a 28-byte blob passes the length
gate and proceeds to tag verification — while variant 1's gate requires at
least 29 bytes, so it also rejects the 28-byte empty-ciphertext blob. -/
theorem C7_length_gates (lib : CipherLib) (blob : List Nat) :
    (decryptSecretV2 lib blob = .error "Invalid encrypted data format" ↔ blob.length < 28) ∧
    (decryptSecretV1 lib blob = .error "Encrypted blob too short" ↔ blob.length < 29) := by
  constructor
  · rw [decryptSecretV2]
    by_cases h : blob.length < 12 + 16
    · simp only [if_pos h]
      constructor
      · intro _
        omega
      · intro _
        trivial
    · simp only [if_neg h]
      constructor
      · intro hcontra
        cases hdec : lib.gcmDec (blob.take 12) (blob.drop 28) ((blob.drop 12).take 16) with
        | some dec => rw [hdec] at hcontra; exact absurd hcontra (by simp)
        | none => rw [hdec] at hcontra; exact absurd hcontra (by simp)
      · intro hlt; omega
  · rw [decryptSecretV1]
    by_cases h : blob.length < 12 + 16 + 1
    · simp only [if_pos h]
      constructor
      · intro _
        omega
      · intro _
        trivial
    · simp only [if_neg h]
      constructor
      · intro hcontra
        cases hdec : lib.gcmDec (blob.take 12) (blob.drop 28) ((blob.drop 12).take 16) with
        | some dec => rw [hdec] at hcontra; exact absurd hcontra (by simp)
        | none => rw [hdec] at hcontra; exact absurd hcontra (by simp)
      · intro hlt; omega

/-! ## C8 — Postgres bytea wire codec -/

theorem hexDigitVal_hexChar : ∀ n, n < 16 → hexDigitVal (hexChar n) = n := by decide

theorem hexToBytes_hexOfBytes (bs : List Nat) (hbs : ∀ b ∈ bs, b < 256) :
    hexToBytes (hexOfBytes bs) = bs := by
  induction bs with
  | nil => rfl
  | cons b rest ih =>
    have hb : b < 256 := hbs b (List.mem_cons_self b rest)
    have hrest : ∀ x ∈ rest, x < 256 := fun x hx => hbs x (List.mem_cons_of_mem b hx)
    have hhead : hexOfBytes (b :: rest) =
        hexChar (b / 16) :: hexChar (b % 16) :: hexOfBytes rest := by
      simp [hexOfBytes, byteToHex]
    rw [hhead, hexToBytes, hexDigitVal_hexChar _ (Nat.div_lt_of_lt_mul (by omega)),
        hexDigitVal_hexChar _ (Nat.mod_lt _ (by omega)), ih hrest]
    congr 1
    omega

theorem dropWhile_of_all_neg {p : Char → Bool} (l : List Char)
    (h : ∀ c ∈ l, p c = false) : l.dropWhile p = l := by
  cases l with
  | nil => rfl
  | cons c rest =>
    rw [List.dropWhile_cons, h c (List.mem_cons_self c rest)]
    simp

theorem jsTrim_of_no_whitespace (cs : List Char)
    (h : ∀ c ∈ cs, c.isWhitespace = false) : jsTrim cs = cs := by
  unfold jsTrim
  rw [dropWhile_of_all_neg cs h, dropWhile_of_all_neg cs.reverse
    (fun c hc => h c (List.mem_reverse.mp hc)), List.reverse_reverse]

theorem hexAlphabet_no_whitespace : ∀ c ∈ hexAlphabet, c.isWhitespace = false := by decide

theorem toPgByteaHex_toList (b : List Nat) :
    (toPgByteaHex b).toList = '\\' :: 'x' :: hexOfBytes b := by
  show ("\\x" ++ String.mk (hexOfBytes b)).data = '\\' :: 'x' :: hexOfBytes b
  rw [String.data_append]
  rfl

theorem b64Val_b64Char : ∀ n, n < 64 → b64Val (b64Char n) = n := by decide

theorem b64Char_ne_pad : ∀ n, n < 64 → b64Char n ≠ '=' := by decide

theorem base64_roundtrip : ∀ bs : List Nat, (∀ b ∈ bs, b < 256) →
    base64Decode (base64Encode bs) = bs
  | [], _ => rfl
  | [b0], h => by
    have hb0 : b0 < 256 := h b0 (by simp)
    rw [show base64Encode [b0] =
          [b64Char (b0 * 65536 / 262144), b64Char (b0 * 65536 / 4096 % 64), '=', '='] from rfl,
        base64Decode]
    rw [if_pos rfl]
    rw [b64Val_b64Char _ (by omega), b64Val_b64Char _ (by omega)]
    congr 1
    omega
  | [b0, b1], h => by
    have hb0 : b0 < 256 := h b0 (by simp)
    have hb1 : b1 < 256 := h b1 (by simp)
    have henc : base64Encode [b0, b1] =
        [b64Char ((b0 * 65536 + b1 * 256) / 262144),
         b64Char ((b0 * 65536 + b1 * 256) / 4096 % 64),
         b64Char ((b0 * 65536 + b1 * 256) / 64 % 64), '='] := rfl
    rw [henc, base64Decode]
    rw [if_neg (b64Char_ne_pad _ (by omega)), if_pos rfl]
    rw [b64Val_b64Char _ (by omega), b64Val_b64Char _ (by omega), b64Val_b64Char _ (by omega)]
    have e0 : ((b0 * 65536 + b1 * 256) / 262144 * 262144 +
        (b0 * 65536 + b1 * 256) / 4096 % 64 * 4096 +
        (b0 * 65536 + b1 * 256) / 64 % 64 * 64) / 65536 = b0 := by omega
    have e1 : ((b0 * 65536 + b1 * 256) / 262144 * 262144 +
        (b0 * 65536 + b1 * 256) / 4096 % 64 * 4096 +
        (b0 * 65536 + b1 * 256) / 64 % 64 * 64) / 256 % 256 = b1 := by omega
    simp only [e0, e1]
  | b0 :: b1 :: b2 :: rest, h => by
    have hb0 : b0 < 256 := h b0 (by simp)
    have hb1 : b1 < 256 := h b1 (by simp)
    have hb2 : b2 < 256 := h b2 (by simp)
    have hrest : ∀ b ∈ rest, b < 256 := fun b hb => h b (by simp [hb])
    have henc : base64Encode (b0 :: b1 :: b2 :: rest) =
        b64Char ((b0 * 65536 + b1 * 256 + b2) / 262144) ::
        b64Char ((b0 * 65536 + b1 * 256 + b2) / 4096 % 64) ::
        b64Char ((b0 * 65536 + b1 * 256 + b2) / 64 % 64) ::
        b64Char ((b0 * 65536 + b1 * 256 + b2) % 64) :: base64Encode rest := rfl
    rw [henc, base64Decode]
    rw [if_neg (b64Char_ne_pad _ (by omega)), if_neg (b64Char_ne_pad _ (by omega))]
    rw [b64Val_b64Char _ (by omega), b64Val_b64Char _ (by omega),
        b64Val_b64Char _ (by omega), b64Val_b64Char _ (by omega)]
    rw [base64_roundtrip rest hrest]
    have e0 : ((b0 * 65536 + b1 * 256 + b2) / 262144 * 262144 +
        (b0 * 65536 + b1 * 256 + b2) / 4096 % 64 * 4096 +
        (b0 * 65536 + b1 * 256 + b2) / 64 % 64 * 64 +
        (b0 * 65536 + b1 * 256 + b2) % 64) / 65536 = b0 := by omega
    have e1 : ((b0 * 65536 + b1 * 256 + b2) / 262144 * 262144 +
        (b0 * 65536 + b1 * 256 + b2) / 4096 % 64 * 4096 +
        (b0 * 65536 + b1 * 256 + b2) / 64 % 64 * 64 +
        (b0 * 65536 + b1 * 256 + b2) % 64) / 256 % 256 = b1 := by omega
    have e2 : ((b0 * 65536 + b1 * 256 + b2) / 262144 * 262144 +
        (b0 * 65536 + b1 * 256 + b2) / 4096 % 64 * 4096 +
        (b0 * 65536 + b1 * 256 + b2) / 64 % 64 * 64 +
        (b0 * 65536 + b1 * 256 + b2) % 64) % 256 = b2 := by omega
    simp only [e0, e1, e2]

theorem base64Alphabet_no_ws_no_backslash :
    ∀ c ∈ base64Alphabet, c.isWhitespace = false ∧ c ≠ '\\' := by decide

theorem b64Char_no_ws_no_backslash (n : Nat) :
    (b64Char n).isWhitespace = false ∧ b64Char n ≠ '\\' := by
  by_cases hn : n < base64Alphabet.length
  · rw [b64Char, List.getD_eq_getElem base64Alphabet 'A' hn]
    exact base64Alphabet_no_ws_no_backslash _ (List.getElem_mem hn)
  · rw [b64Char, List.getD_eq_default base64Alphabet 'A' (by omega)]
    exact ⟨rfl, by decide⟩

theorem base64Encode_no_ws_no_backslash : ∀ bs : List Nat,
    ∀ c ∈ base64Encode bs, c.isWhitespace = false ∧ c ≠ '\\'
  | [] => by intro c hc; simp [base64Encode] at hc
  | [b0] => by
    intro c hc
    rw [show base64Encode [b0] =
        [b64Char (b0 * 65536 / 262144), b64Char (b0 * 65536 / 4096 % 64), '=', '='] from rfl] at hc
    simp only [List.mem_cons, List.not_mem_nil, or_false] at hc
    rcases hc with h | h | h | h <;> subst h
    · exact b64Char_no_ws_no_backslash _
    · exact b64Char_no_ws_no_backslash _
    · exact ⟨rfl, by decide⟩
    · exact ⟨rfl, by decide⟩
  | [b0, b1] => by
    intro c hc
    rw [show base64Encode [b0, b1] =
        [b64Char ((b0 * 65536 + b1 * 256) / 262144), b64Char ((b0 * 65536 + b1 * 256) / 4096 % 64),
         b64Char ((b0 * 65536 + b1 * 256) / 64 % 64), '='] from rfl] at hc
    simp only [List.mem_cons, List.not_mem_nil, or_false] at hc
    rcases hc with h | h | h | h <;> subst h
    · exact b64Char_no_ws_no_backslash _
    · exact b64Char_no_ws_no_backslash _
    · exact b64Char_no_ws_no_backslash _
    · exact ⟨rfl, by decide⟩
  | b0 :: b1 :: b2 :: rest => by
    intro c hc
    rw [show base64Encode (b0 :: b1 :: b2 :: rest) =
        b64Char ((b0 * 65536 + b1 * 256 + b2) / 262144) ::
        b64Char ((b0 * 65536 + b1 * 256 + b2) / 4096 % 64) ::
        b64Char ((b0 * 65536 + b1 * 256 + b2) / 64 % 64) ::
        b64Char ((b0 * 65536 + b1 * 256 + b2) % 64) :: base64Encode rest from rfl] at hc
    simp only [List.mem_cons] at hc
    rcases hc with h | h | h | h | h
    · subst h; exact b64Char_no_ws_no_backslash _
    · subst h; exact b64Char_no_ws_no_backslash _
    · subst h; exact b64Char_no_ws_no_backslash _
    · subst h; exact b64Char_no_ws_no_backslash _
    · exact base64Encode_no_ws_no_backslash rest c h

/-- **C8.**  The wire codec round-trips: `fromPgBytea` recovers the exact
bytes from `toPgByteaHex`'s `\x`-hex string, from an already-decoded byte
array (either `Uint8Array` or `number[]` shape), and from the standard
base64 string encoding of the same bytes. -/
theorem fromPgBytea_str (s : String) :
    fromPgBytea (.str s) =
      match jsTrim s.toList with
      | '\\' :: 'x' :: rest => .ok (hexToBytes rest)
      | '\\' :: 'X' :: rest => .ok (hexToBytes rest)
      | cs => .ok (base64Decode cs) := rfl

/-- **C8.**  The wire codec round-trips: `fromPgBytea` recovers the exact
bytes from `toPgByteaHex`'s `\x`-hex string, from an already-decoded byte
array (either `Uint8Array` or `number[]` shape), and from the standard
base64 string encoding of the same bytes. -/
theorem C8_wire_roundtrip (b : List Nat) (hb : ∀ x ∈ b, x < 256) :
    fromPgBytea (.str (toPgByteaHex b)) = .ok b ∧
    fromPgBytea (.uint8Array b) = .ok b ∧
    fromPgBytea (.numberArray b) = .ok b ∧
    fromPgBytea (.str (String.mk (base64Encode b))) = .ok b := by
  refine ⟨?_, rfl, rfl, ?_⟩
  · have hlist : (toPgByteaHex b).toList = '\\' :: 'x' :: hexOfBytes b := toPgByteaHex_toList b
    have hnws : ∀ c ∈ (toPgByteaHex b).toList, c.isWhitespace = false := by
      rw [hlist]
      intro c hc
      simp only [List.mem_cons] at hc
      rcases hc with h | h | h
      · subst h; rfl
      · subst h; rfl
      · exact hexAlphabet_no_whitespace c (hexOfBytes_mem b hb c h)
    rw [fromPgBytea_str, jsTrim_of_no_whitespace _ hnws, hlist]
    exact congrArg Except.ok (hexToBytes_hexOfBytes b hb)
  · have hnws : ∀ c ∈ (String.mk (base64Encode b)).toList, c.isWhitespace = false :=
      fun c hc => (base64Encode_no_ws_no_backslash b c hc).1
    have hdata : (String.mk (base64Encode b)).toList = base64Encode b := rfl
    have hnbs : '\\' ∉ base64Encode b := fun hmem =>
      (base64Encode_no_ws_no_backslash b '\\' hmem).2 rfl
    rw [fromPgBytea_str, jsTrim_of_no_whitespace _ hnws, hdata]
    split
    next rest heq =>
      exact absurd (heq ▸ List.mem_cons_self '\\' _) hnbs
    next rest heq =>
      exact absurd (heq ▸ List.mem_cons_self '\\' _) hnbs
    next =>
      exact congrArg Except.ok (base64_roundtrip b hb)

/-- **C8, witness**: the round-trip theorem applied to the concrete byte
sequence `de ad be ef`. -/
theorem C8_wire_roundtrip_witness :
    fromPgBytea (.str (toPgByteaHex [222, 173, 190, 239])) = .ok [222, 173, 190, 239] ∧
    fromPgBytea (.uint8Array [222, 173, 190, 239]) = .ok [222, 173, 190, 239] ∧
    fromPgBytea (.numberArray [222, 173, 190, 239]) = .ok [222, 173, 190, 239] ∧
    fromPgBytea (.str (String.mk (base64Encode [222, 173, 190, 239]))) =
      .ok [222, 173, 190, 239] :=
  C8_wire_roundtrip [222, 173, 190, 239] (by decide)

/-! ## C4 — buy/sell sign convention for orders -/

/-- **C4.**  An `order` raw record with numeric amount `a` and price `pr`
and resolved market info `{base, quote}` normalizes with the claimed sign
convention: side `bid` gives `txn_type = buy`, `base_amount = +|a|`,
`quote_amount = -|a·pr|`; side `ask` gives `txn_type = sell`,
`base_amount = -|a|`, `quote_amount = +|a·pr|`. -/
theorem C4_order_sign_convention (now : String) (raw : RawRow) (a pr : Rat)
    (base quote : String)
    (hk : raw.kind = "order") (ha : raw.payload.amount = some a)
    (hp : raw.payload.price = some pr)
    (hm : raw.payload.marketInfo = some ⟨base, quote⟩) :
    (raw.payload.side = some "bid" →
      normalizeFiri now raw = some
        { source_raw_id := raw.id, txn_type := .buy,
          base_asset := some base, base_amount := some |a|,
          quote_asset := some quote, quote_amount := some (-|a * pr|),
          fee_asset := some quote, fee_amount := none, price := some pr,
          txid := none, order_id := raw.payload.id,
          occurred_at := «when» raw.occurred_at now, metadata := raw.payload }) ∧
    (raw.payload.side = some "ask" →
      normalizeFiri now raw = some
        { source_raw_id := raw.id, txn_type := .sell,
          base_asset := some base, base_amount := some (-|a|),
          quote_asset := some quote, quote_amount := some |a * pr|,
          fee_asset := some quote, fee_amount := none, price := some pr,
          txid := none, order_id := raw.payload.id,
          occurred_at := «when» raw.occurred_at now, metadata := raw.payload }) := by
  have hko : raw.kind ≠ "deposit" := by rw [hk]; decide
  have hkh : raw.kind ≠ "history.transaction" := by rw [hk]; decide
  constructor
  · intro hside
    rw [normalizeFiri]
    rw [if_neg hko, if_neg hkh, if_pos hk]
    simp only [hside, ha, hp, hm, Option.getD_some, numOrNull, Option.map_some]
    have hlow : jsToLower "bid" = "bid" := by decide
    rw [hlow]
    simp
  · intro hside
    rw [normalizeFiri]
    rw [if_neg hko, if_neg hkh, if_pos hk]
    simp only [hside, ha, hp, hm, Option.getD_some, numOrNull, Option.map_some]
    have h1 : jsToLower "ask" = "ask" := by decide
    have h2 : ("ask" : String) ≠ "bid" := by decide
    rw [h1]
    simp [h2]

/-- **C4, witness**: the theorem applied to the claim's example — a bid of
amount 2 at price 100 on a BTC/NOK market. -/
theorem C4_order_sign_convention_witness :
    (({ id := 7, kind := "order",
        payload := { currency := none, amount := some 2, transaction_hash := none,
                     details := none, type := none, side := some "bid", price := some 100,
                     id := some "O1", order_id := none,
                     marketInfo := some ⟨"BTC", "NOK"⟩ },
        occurred_at := some "2024-01-01T00:00:00.000Z" } : RawRow).payload.side = some "bid" →
      normalizeFiri "NOW"
        { id := 7, kind := "order",
          payload := { currency := none, amount := some 2, transaction_hash := none,
                       details := none, type := none, side := some "bid", price := some 100,
                       id := some "O1", order_id := none,
                       marketInfo := some ⟨"BTC", "NOK"⟩ },
          occurred_at := some "2024-01-01T00:00:00.000Z" } = some
        { source_raw_id := 7, txn_type := .buy,
          base_asset := some "BTC", base_amount := some |(2 : Rat)|,
          quote_asset := some "NOK", quote_amount := some (-|(2 : Rat) * 100|),
          fee_asset := some "NOK", fee_amount := none, price := some 100,
          txid := none,
          order_id := some "O1",
          occurred_at := «when» (some "2024-01-01T00:00:00.000Z") "NOW",
          metadata := { currency := none, amount := some 2, transaction_hash := none,
                        details := none, type := none, side := some "bid", price := some 100,
                        id := some "O1", order_id := none,
                        marketInfo := some ⟨"BTC", "NOK"⟩ } }) ∧
    (({ id := 7, kind := "order",
        payload := { currency := none, amount := some 2, transaction_hash := none,
                     details := none, type := none, side := some "bid", price := some 100,
                     id := some "O1", order_id := none,
                     marketInfo := some ⟨"BTC", "NOK"⟩ },
        occurred_at := some "2024-01-01T00:00:00.000Z" } : RawRow).payload.side = some "ask" →
      normalizeFiri "NOW"
        { id := 7, kind := "order",
          payload := { currency := none, amount := some 2, transaction_hash := none,
                       details := none, type := none, side := some "bid", price := some 100,
                       id := some "O1", order_id := none,
                       marketInfo := some ⟨"BTC", "NOK"⟩ },
          occurred_at := some "2024-01-01T00:00:00.000Z" } = some
        { source_raw_id := 7, txn_type := .sell,
          base_asset := some "BTC", base_amount := some (-|(2 : Rat)|),
          quote_asset := some "NOK", quote_amount := some |(2 : Rat) * 100|,
          fee_asset := some "NOK", fee_amount := none, price := some 100,
          txid := none,
          order_id := some "O1",
          occurred_at := «when» (some "2024-01-01T00:00:00.000Z") "NOW",
          metadata := { currency := none, amount := some 2, transaction_hash := none,
                        details := none, type := none, side := some "bid", price := some 100,
                        id := some "O1", order_id := none,
                        marketInfo := some ⟨"BTC", "NOK"⟩ } }) :=
  C4_order_sign_convention "NOW" _ 2 100 "BTC" "NOK" rfl rfl rfl rfl

/-! ## C10 — unresolvable enrichment passes rows through -/

theorem mapSet_lookup_ne (m : List (String × OrderWithMarket)) (k k' : String)
    (v : OrderWithMarket) (hne : k' ≠ k) :
    mapLookup (mapSet m k v) k' = mapLookup m k' := by
  rw [mapSet]
  by_cases hmem : (mapLookup m k).isSome
  · rw [if_pos hmem]
    clear hmem
    induction m with
    | nil => rfl
    | cons kv rest ih =>
      by_cases hk : kv.1 = k
      · simp only [List.map_cons, if_pos hk, mapLookup]
        rw [if_neg (fun h : k = k' => hne h.symm),
            if_neg (fun h : kv.1 = k' => hne (h.symm.trans hk))]
        exact ih
      · simp only [List.map_cons, if_neg hk, mapLookup]
        by_cases hbeq : kv.1 = k'
        · rw [if_pos hbeq, if_pos hbeq]
        · rw [if_neg hbeq, if_neg hbeq]
          exact ih
  · rw [if_neg hmem]
    clear hmem
    induction m with
    | nil =>
      simp only [List.nil_append, mapLookup]
      rw [if_neg (fun h => hne h.symm)]
    | cons kv rest ih =>
      simp only [List.cons_append, mapLookup]
      by_cases hbeq : kv.1 = k'
      · rw [if_pos hbeq, if_pos hbeq]
      · rw [if_neg hbeq, if_neg hbeq]
        exact ih

theorem buildByOrderId_lookup_none (orders : List OrderWithMarket)
    (markets : String → Option MarketInfo) (oid : String)
    (habs : ∀ o ∈ orders, o.id ≠ oid) :
    mapLookup (buildByOrderId orders markets) oid = none := by
  rw [buildByOrderId]
  have hgen : ∀ (l : List OrderWithMarket) (acc : List (String × OrderWithMarket)),
      (∀ o ∈ l, o.id ≠ oid) → mapLookup acc oid = none →
      mapLookup (l.foldl (fun acc o =>
        if o.id = "" then acc
        else
          let m := match o.marketInfo with
                   | some mi => some mi
                   | none => if o.market = "" then none else markets o.market
          mapSet acc o.id { o with marketInfo := m }) acc) oid = none := by
    intro l
    induction l with
    | nil => intro acc _ hacc; exact hacc
    | cons o rest ih =>
      intro acc hl hacc
      simp only [List.foldl_cons]
      apply ih
      · exact fun o' ho' => hl o' (List.mem_cons_of_mem o ho')
      · by_cases hid : o.id = ""
        · rw [if_pos hid]; exact hacc
        · rw [if_neg hid]
          rw [mapSet_lookup_ne _ _ _ _ (fun heq => hl o (List.mem_cons_self o rest) heq.symm)]
          exact hacc
  exact hgen orders [] habs rfl

/-- **C10.**  `enrichTradeMatches` maps each row through `enrichOne`, and
`enrichOne` returns a row unchanged (never throwing — the model is total)
whenever the row is not a `trade_match`, has a falsy `order_id`, refers to
an order id absent from the supplied order set, or matches an order whose
market info did not resolve.  In particular null base/quote fields stay
null. -/
theorem C10_enrich_unresolvable_passthrough :
    ∀ (trades : List NRow) (orders : List OrderWithMarket)
      (markets : String → Option MarketInfo),
      enrichTradeMatches trades orders markets =
        trades.map (enrichOne (buildByOrderId orders markets)) ∧
      (∀ byId (trade : NRow), trade.txn_type ≠ .trade_match → enrichOne byId trade = trade) ∧
      (∀ byId (trade : NRow), jsTruthyStr trade.order_id = none → enrichOne byId trade = trade) ∧
      (∀ (trade : NRow) oid, jsTruthyStr trade.order_id = some oid →
        (∀ o ∈ orders, o.id ≠ oid) →
        enrichOne (buildByOrderId orders markets) trade = trade) ∧
      (∀ byId (trade : NRow) oid o, jsTruthyStr trade.order_id = some oid →
        mapLookup byId oid = some o → o.marketInfo = none →
        enrichOne byId trade = trade) := by
  intro trades orders markets
  refine ⟨rfl, ?_, ?_, ?_, ?_⟩
  · intro byId trade hne
    rw [enrichOne, if_pos hne]
  · intro byId trade hfalsy
    rw [enrichOne]
    by_cases htm : trade.txn_type ≠ .trade_match
    · rw [if_pos htm]
    · rw [if_neg htm, hfalsy]
  · intro trade oid htruthy habs
    rw [enrichOne]
    by_cases htm : trade.txn_type ≠ .trade_match
    · rw [if_pos htm]
    · rw [if_neg htm, htruthy]
      simp only [buildByOrderId_lookup_none orders markets oid habs]
  · intro byId trade oid o htruthy hlook hmi
    rw [enrichOne]
    by_cases htm : trade.txn_type ≠ .trade_match
    · rw [if_pos htm]
    · rw [if_neg htm, htruthy]
      simp only [hlook, hmi]

/-! ## C5 — pagination termination -/

theorem syncPageStep_empty (opts : SyncOptionsM) (cursor : StreamCursor)
    (page : List PageRec) (now : String)
    (hmore : cursor.hasMore = true) (hpage : cursor.page < opts.maxPages)
    (hlen : page.length = 0) :
    syncPageStep opts cursor page now =
      ([], { cursor with hasMore := false, page := cursor.page + 1 }, false) := by
  rw [syncPageStep, if_neg, if_pos hlen]
  intro hcon
  rcases hcon with hc | hc
  · rw [hmore] at hc; exact hc rfl
  · omega

theorem syncPageStep_nonempty (opts : SyncOptionsM) (cursor : StreamCursor)
    (page : List PageRec) (now : String)
    (hmore : cursor.hasMore = true) (hpage : cursor.page < opts.maxPages)
    (hlen : page.length ≠ 0) :
    syncPageStep opts cursor page now =
      (page,
       { page := cursor.page + 1,
         lastId := page.getLast?.bind (fun r => jsTruthyStr r.id),
         hasMore := decide (page.length = opts.batchSize),
         lastSyncAt := now },
       decide (page.length = opts.batchSize)) := by
  rw [syncPageStep, if_neg, if_neg hlen]
  intro hcon
  rcases hcon with hc | hc
  · rw [hmore] at hc; exact hc rfl
  · omega

theorem flatten_range_shift {α : Type} (g : Nat → List α) (n c : Nat) :
    (List.map (fun i => g (c + i)) (List.range (n + 1))).flatten =
      g c ++ (List.map (fun i => g (c + 1 + i)) (List.range n)).flatten := by
  rw [List.range_succ_eq_map]
  simp only [List.map_cons, List.flatten_cons, List.map_map, Nat.add_zero]
  congr 2
  apply List.map_congr_left
  intro i _
  simp only [Function.comp_apply]
  congr 1
  omega

theorem syncLoop_spec (opts : SyncOptionsM) (resp : Nat → List PageRec) (now : String) :
    ∀ (K fuel : Nat) (cursor : StreamCursor) (acc : List PageRec) (calls : Nat),
      cursor.hasMore = true → cursor.page + K < opts.maxPages → K < fuel →
      (∀ i, i < K → (resp (calls + i)).length = opts.batchSize) →
      (resp (calls + K)).length < opts.batchSize → 1 ≤ opts.batchSize →
      (syncLoop opts resp now fuel cursor acc calls).2.2 = calls + K + 1 ∧
      (syncLoop opts resp now fuel cursor acc calls).1.hasMore = false ∧
      (syncLoop opts resp now fuel cursor acc calls).2.1 =
        acc ++ ((List.range (K + 1)).map (fun i => resp (calls + i))).flatten := by
  intro K
  induction K with
  | zero =>
    intro fuel cursor acc calls hmore hpage hfuel _ hshort hbatch
    obtain ⟨f, rfl⟩ : ∃ f, fuel = f + 1 := ⟨fuel - 1, by omega⟩
    rw [syncLoop]
    rw [if_pos ⟨hmore, by omega⟩]
    by_cases hlen0 : (resp calls).length = 0
    · have hnil : resp calls = [] := List.length_eq_zero.mp hlen0
      simp only [syncPageStep_empty opts cursor (resp calls) now hmore (by omega) hlen0]
      refine ⟨rfl, rfl, ?_⟩
      simp [hnil]
    · have hneq : decide ((resp calls).length = opts.batchSize) = false := by
        simp only [decide_eq_false_iff_not]
        intro heq
        simp only [Nat.add_zero] at hshort
        omega
      simp only [syncPageStep_nonempty opts cursor (resp calls) now hmore (by omega) hlen0, hneq]
      refine ⟨rfl, rfl, ?_⟩
      show acc ++ resp calls =
        acc ++ (List.map (fun i => resp (calls + i)) (List.range (0 + 1))).flatten
      have h1 : List.range (0 + 1) = [0] := rfl
      rw [h1]
      simp
  | succ K ih =>
    intro fuel cursor acc calls hmore hpage hfuel hfull hshort hbatch
    obtain ⟨f, rfl⟩ : ∃ f, fuel = f + 1 := ⟨fuel - 1, by omega⟩
    rw [syncLoop]
    rw [if_pos ⟨hmore, by omega⟩]
    have hlen : (resp calls).length = opts.batchSize := by
      have := hfull 0 (by omega)
      simpa using this
    have hlen0 : (resp calls).length ≠ 0 := by omega
    have heqT : decide ((resp calls).length = opts.batchSize) = true := by
      simp [hlen]
    simp only [syncPageStep_nonempty opts cursor (resp calls) now hmore (by omega) hlen0, heqT]
    rw [if_pos trivial]
    have hrec := ih f
      { page := cursor.page + 1,
        lastId := (resp calls).getLast?.bind (fun r => jsTruthyStr r.id),
        hasMore := true, lastSyncAt := now }
      (acc ++ resp calls) (calls + 1)
      rfl (by simp only []; omega) (by omega)
      (fun i hi => by
        have := hfull (i + 1) (by omega)
        have harith : calls + (i + 1) = calls + 1 + i := by omega
        rwa [harith] at this)
      (by
        have harith : calls + (K + 1) = calls + 1 + K := by omega
        rwa [harith] at hshort)
      hbatch
    refine ⟨?_, ?_, ?_⟩
    · rw [hrec.1]; omega
    · exact hrec.2.1
    · rw [hrec.2.2, List.append_assoc]
      congr 1
      rw [flatten_range_shift resp (K + 1) calls]

/-- **C5, counterexample.**  With the page ceiling configured at
`maxPages = 2` and `batchSize = 1`, a stubbed exchange returning full
pages for the first `K = 3` requests and a short page afterwards gets only
2 page requests (not `K + 1 = 4`), and the stream's cursor is left with
`hasMore = true` — the claim omits the `page < maxPages` loop ceiling. -/
theorem C5_counterexample :
    (runSyncStream ⟨1, 2⟩ (fun i => if i < 3 then [⟨some "r"⟩] else []) "NOW").2.2 = 2 ∧
    (runSyncStream ⟨1, 2⟩ (fun i => if i < 3 then [⟨some "r"⟩] else []) "NOW").1.hasMore = true ∧
    (2 : Nat) ≠ 3 + 1 := by
  refine ⟨rfl, rfl, by omega⟩

/-- **C5** (amended): provided the short page arrives before the
configured hard page ceiling (`K < maxPages`) and `batchSize ≥ 1`, the
stream's pagination loop issues exactly `K + 1` page requests, ends with
`hasMore = false`, and accumulates the returned pages in order; each
in-loop page advance sets `hasMore` true exactly when the page length
equals `batchSize` and `lastId` to the last record's truthy identifier. -/
theorem C5_pagination_termination (opts : SyncOptionsM) (resp : Nat → List PageRec)
    (now : String) (K : Nat)
    (hbatch : 1 ≤ opts.batchSize)
    (hfull : ∀ i, i < K → (resp i).length = opts.batchSize)
    (hshort : (resp K).length < opts.batchSize)
    (hK : K < opts.maxPages) :
    (runSyncStream opts resp now).2.2 = K + 1 ∧
    (runSyncStream opts resp now).1.hasMore = false ∧
    (runSyncStream opts resp now).2.1 = ((List.range (K + 1)).map resp).flatten ∧
    (∀ (cursor : StreamCursor) (page : List PageRec),
      cursor.hasMore = true → cursor.page < opts.maxPages → page ≠ [] →
      (syncPageStep opts cursor page now).2.1.lastId =
        page.getLast?.bind (fun r => jsTruthyStr r.id) ∧
      ((syncPageStep opts cursor page now).2.1.hasMore = true ↔
        page.length = opts.batchSize)) := by
  have hrun := syncLoop_spec opts resp now K (opts.maxPages + 1)
    { page := 0, lastId := none, hasMore := true, lastSyncAt := now } [] 0
    rfl (by show (0 : Nat) + K < opts.maxPages; omega) (by omega)
    (fun i hi => by simpa using hfull i hi) (by simpa using hshort) hbatch
  refine ⟨by simpa [runSyncStream] using hrun.1, by simpa [runSyncStream] using hrun.2.1,
    ?_, ?_⟩
  · have := hrun.2.2
    simpa [runSyncStream] using this
  · intro cursor page hmore hpage hne
    rw [syncPageStep, if_neg (by
      intro hcon
      rcases hcon with hc | hc
      · exact hc (by simp [hmore])
      · omega)]
    rw [if_neg (by
      intro h0
      exact hne (List.length_eq_zero.mp h0))]
    constructor
    · rfl
    · simp

/-- **C5, witness**: the amended theorem at `batchSize = 2`,
`maxPages = 1000`, and an exchange that returns three full pages then a
short one. -/
theorem C5_pagination_termination_witness :
    (runSyncStream ⟨2, 1000⟩
        (fun i => if i < 3 then [⟨some "a"⟩, ⟨some "b"⟩] else [⟨some "z"⟩]) "NOW").2.2 = 3 + 1 ∧
    (runSyncStream ⟨2, 1000⟩
        (fun i => if i < 3 then [⟨some "a"⟩, ⟨some "b"⟩] else [⟨some "z"⟩]) "NOW").1.hasMore
      = false ∧
    (runSyncStream ⟨2, 1000⟩
        (fun i => if i < 3 then [⟨some "a"⟩, ⟨some "b"⟩] else [⟨some "z"⟩]) "NOW").2.1 =
      ((List.range (3 + 1)).map
        (fun i => if i < 3 then [⟨some "a"⟩, ⟨some "b"⟩] else [⟨some "z"⟩])).flatten ∧
    (∀ (cursor : StreamCursor) (page : List PageRec),
      cursor.hasMore = true → cursor.page < (⟨2, 1000⟩ : SyncOptionsM).maxPages → page ≠ [] →
      (syncPageStep ⟨2, 1000⟩ cursor page "NOW").2.1.lastId =
        page.getLast?.bind (fun r => jsTruthyStr r.id) ∧
      ((syncPageStep ⟨2, 1000⟩ cursor page "NOW").2.1.hasMore = true ↔
        page.length = (⟨2, 1000⟩ : SyncOptionsM).batchSize)) :=
  C5_pagination_termination ⟨2, 1000⟩
    (fun i => if i < 3 then [⟨some "a"⟩, ⟨some "b"⟩] else [⟨some "z"⟩]) "NOW" 3
    (by decide) (by decide) (by decide) (by decide)

/-! ## List helpers for the fee merge -/

theorem getD_set_self {α : Type} [Inhabited α] :
    ∀ (l : List α) (i : Nat) (v : α), i < l.length → (l.set i v).getD i default = v
  | [], i, v, h => absurd h (by simp)
  | x :: xs, 0, v, _ => rfl
  | x :: xs, i + 1, v, h => getD_set_self xs i v (by simpa using h)

theorem getD_set_ne {α : Type} [Inhabited α] :
    ∀ (l : List α) (i j : Nat) (v : α), j ≠ i → (l.set i v).getD j default = l.getD j default
  | [], _, _, _, _ => rfl
  | x :: xs, 0, 0, v, h => absurd rfl h
  | x :: xs, 0, j + 1, v, _ => rfl
  | x :: xs, i + 1, 0, v, _ => rfl
  | x :: xs, i + 1, j + 1, v, h =>
    getD_set_ne xs i j v (fun hji => h (by omega))

theorem set_length {α : Type} (l : List α) (i : Nat) (v : α) :
    (l.set i v).length = l.length := List.length_set l i v

theorem dropIdxsFrom_all_lt {α : Type} (blocked : List Nat) :
    ∀ (l : List α) (k : Nat), (∀ j ∈ blocked, j < k) → dropIdxsFrom blocked k l = l
  | [], _, _ => rfl
  | x :: xs, k, h => by
    rw [dropIdxsFrom, if_neg (fun hk => absurd (h k hk) (by omega))]
    rw [dropIdxsFrom_all_lt blocked xs (k + 1) (fun j hj => by have := h j hj; omega)]

theorem dropIdxsFrom_eraseIdx {α : Type} :
    ∀ (l : List α) (k i : Nat) (rest : List Nat),
      (∀ j ∈ rest, j < i) → k ≤ i → i - k < l.length →
      dropIdxsFrom rest k (l.eraseIdx (i - k)) = dropIdxsFrom (i :: rest) k l
  | [], k, i, rest, _, _, h => absurd h (by simp)
  | x :: xs, k, i, rest, hrest, hki, hlen => by
    by_cases hk : k = i
    · subst hk
      rw [Nat.sub_self]
      show dropIdxsFrom rest k xs = dropIdxsFrom (k :: rest) k (x :: xs)
      rw [dropIdxsFrom, if_pos (List.mem_cons_self k rest)]
      rw [dropIdxsFrom_all_lt rest xs k (fun j hj => hrest j hj),
          dropIdxsFrom_all_lt (k :: rest) xs (k + 1) (fun j hj => by
            rcases List.mem_cons.mp hj with h | h
            · omega
            · have := hrest j h; omega)]
    · have hklt : k < i := by omega
      have hik : i - k = (i - (k + 1)) + 1 := by omega
      rw [hik]
      show dropIdxsFrom rest k (x :: xs.eraseIdx (i - (k + 1))) =
        dropIdxsFrom (i :: rest) k (x :: xs)
      rw [dropIdxsFrom, dropIdxsFrom]
      have hmem : (k ∈ i :: rest) = (k ∈ rest) := by
        simp only [List.mem_cons, eq_iff_iff]
        constructor
        · rintro (h | h)
          · omega
          · exact h
        · exact Or.inr
      have hrec := dropIdxsFrom_eraseIdx xs (k + 1) i rest hrest (by omega) (by
        simp only [List.length_cons] at hlen
        omega)
      have hrec' : dropIdxsFrom rest (k + 1) (xs.eraseIdx (i - (k + 1))) =
          dropIdxsFrom (i :: rest) (k + 1) xs := by
        rw [← hrec]
      by_cases hkr : k ∈ rest
      · rw [if_pos hkr, if_pos (by rw [hmem]; exact hkr), hrec']
      · rw [if_neg hkr, if_neg (by rw [hmem]; exact hkr), hrec']

theorem removeIdxs_eq_dropIdxs :
    ∀ (idxs : List Nat) (l : List NRow),
      idxs.Pairwise (· > ·) → (∀ j ∈ idxs, j < l.length) →
      removeIdxs l idxs = dropIdxsFrom idxs 0 l
  | [], l, _, _ => by
    rw [removeIdxs]
    simp only [List.foldl_nil]
    rw [dropIdxsFrom_all_lt [] l 0 (by simp)]
  | i :: rest, l, hsorted, hbound => by
    have hi : i < l.length := hbound i (List.mem_cons_self i rest)
    have hlt : ∀ j ∈ rest, j < i := fun j hj => (List.pairwise_cons.mp hsorted).1 j hj
    rw [removeIdxs]
    simp only [List.foldl_cons, if_pos hi]
    have hrest : removeIdxs (l.eraseIdx i) rest = dropIdxsFrom rest 0 (l.eraseIdx i) :=
      removeIdxs_eq_dropIdxs rest (l.eraseIdx i) (List.pairwise_cons.mp hsorted).2
        (fun j hj => by
          rw [List.length_eraseIdx_of_lt hi]
          have := hlt j hj
          omega)
    show removeIdxs (l.eraseIdx i) rest = _
    rw [hrest]
    have := dropIdxsFrom_eraseIdx l 0 i rest hlt (by omega) (by simpa using hi)
    simpa using this

theorem mem_dropIdxsFrom {α : Type} [Inhabited α] (blocked : List Nat) :
    ∀ (l : List α) (k : Nat) (x : α),
      x ∈ dropIdxsFrom blocked k l ↔
        ∃ m, m < l.length ∧ (k + m) ∉ blocked ∧ l.getD m default = x
  | [], k, x => by simp [dropIdxsFrom]
  | y :: ys, k, x => by
    rw [dropIdxsFrom]
    by_cases hk : k ∈ blocked
    · rw [if_pos hk, mem_dropIdxsFrom blocked ys (k + 1) x]
      constructor
      · rintro ⟨m, hm, hnb, hget⟩
        exact ⟨m + 1, by simpa using hm, by
          have : k + 1 + m = k + (m + 1) := by omega
          rw [← this]; exact hnb, hget⟩
      · rintro ⟨m, hm, hnb, hget⟩
        cases m with
        | zero => exact absurd (by simpa using hk) (by simpa using hnb)
        | succ m' =>
          exact ⟨m', by simpa using hm, by
            have : k + 1 + m' = k + (m' + 1) := by omega
            rw [this]; exact hnb, hget⟩
    · rw [if_neg hk]
      constructor
      · intro hmem
        rcases List.mem_cons.mp hmem with h | h
        · exact ⟨0, by simp, by simpa using hk, h.symm⟩
        · obtain ⟨m, hm, hnb, hget⟩ := (mem_dropIdxsFrom blocked ys (k + 1) x).mp h
          exact ⟨m + 1, by simpa using hm, by
            have : k + 1 + m = k + (m + 1) := by omega
            rw [← this]; exact hnb, hget⟩
      · rintro ⟨m, hm, hnb, hget⟩
        cases m with
        | zero => exact hget ▸ List.mem_cons_self y _
        | succ m' =>
          exact List.mem_cons_of_mem y ((mem_dropIdxsFrom blocked ys (k + 1) x).mpr
            ⟨m', by simpa using hm, by
              have : k + 1 + m' = k + (m' + 1) := by omega
              rw [this]; exact hnb, hget⟩)

theorem insertDesc_perm (n : Nat) : ∀ l : List Nat, (insertDesc n l).Perm (n :: l)
  | [] => List.Perm.refl _
  | m :: rest => by
    rw [insertDesc]
    by_cases h : n ≥ m
    · rw [if_pos h]
    · rw [if_neg h]
      exact ((insertDesc_perm n rest).cons m).trans (List.Perm.swap n m rest)

theorem sortDesc_perm (l : List Nat) : (sortDesc l).Perm l := by
  induction l with
  | nil => exact List.Perm.refl _
  | cons x xs ih =>
    rw [sortDesc, List.foldr_cons]
    exact (insertDesc_perm x _).trans (ih.cons x)

theorem insertDesc_sorted (n : Nat) :
    ∀ l : List Nat, l.Pairwise (· ≥ ·) → (insertDesc n l).Pairwise (· ≥ ·)
  | [], _ => by simp [insertDesc]
  | m :: rest, h => by
    rw [insertDesc]
    obtain ⟨hm, hrest⟩ := List.pairwise_cons.mp h
    by_cases hge : n ≥ m
    · rw [if_pos hge]
      exact List.pairwise_cons.mpr ⟨fun b hb => by
        rcases List.mem_cons.mp hb with h | h
        · omega
        · have := hm b h; omega, h⟩
    · rw [if_neg hge]
      refine List.pairwise_cons.mpr ⟨fun b hb => ?_, insertDesc_sorted n rest hrest⟩
      have hbmem : b ∈ n :: rest := (insertDesc_perm n rest).mem_iff.mp hb
      rcases List.mem_cons.mp hbmem with h | h
      · omega
      · exact hm b h

theorem sortDesc_sorted (l : List Nat) : (sortDesc l).Pairwise (· ≥ ·) := by
  induction l with
  | nil => simp [sortDesc]
  | cons x xs ih =>
    rw [sortDesc, List.foldr_cons]
    exact insertDesc_sorted x _ ih

theorem sortDesc_pairwise_gt (l : List Nat) (hnd : l.Nodup) :
    (sortDesc l).Pairwise (· > ·) := by
  have hnd' : (sortDesc l).Nodup := (sortDesc_perm l).nodup_iff.mpr hnd
  have hge := sortDesc_sorted l
  exact (hge.and hnd').imp (fun h => by omega)

theorem mem_sortDesc (l : List Nat) (j : Nat) : j ∈ sortDesc l ↔ j ∈ l :=
  (sortDesc_perm l).mem_iff

/-! ## mapLookup helpers -/

theorem mapLookup_append {α : Type} :
    ∀ (l1 l2 : List (String × α)) (k : String),
      mapLookup (l1 ++ l2) k =
        match mapLookup l1 k with
        | some v => some v
        | none => mapLookup l2 k
  | [], l2, k => rfl
  | kv :: rest, l2, k => by
    show mapLookup (kv :: (rest ++ l2)) k = _
    rw [mapLookup, mapLookup]
    by_cases h : kv.1 = k
    · rw [if_pos h, if_pos h]
    · rw [if_neg h, if_neg h]
      exact mapLookup_append rest l2 k

theorem mapLookup_eq_none_iff {α : Type} :
    ∀ (l : List (String × α)) (k : String),
      mapLookup l k = none ↔ k ∉ l.map Prod.fst
  | [], k => by simp [mapLookup]
  | kv :: rest, k => by
    rw [mapLookup]
    by_cases h : kv.1 = k
    · rw [if_pos h]
      simp [h]
    · rw [if_neg h]
      rw [mapLookup_eq_none_iff rest k]
      simp only [List.map_cons, List.mem_cons]
      constructor
      · intro hn hc
        rcases hc with hc | hc
        · exact h hc.symm
        · exact hn hc
      · intro hn hc
        exact hn (Or.inr hc)

theorem mapLookup_some_mem {α : Type} :
    ∀ (l : List (String × α)) (k : String) (v : α),
      mapLookup l k = some v → (k, v) ∈ l
  | [], k, v, h => by simp [mapLookup] at h
  | kv :: rest, k, v, h => by
    rw [mapLookup] at h
    by_cases hk : kv.1 = k
    · rw [if_pos hk] at h
      cases h
      exact (show kv = (k, kv.2) from by rw [← hk]) ▸ List.mem_cons_self kv rest
    · rw [if_neg hk] at h
      exact List.mem_cons_of_mem kv (mapLookup_some_mem rest k v h)

theorem mapLookup_of_mem_nodup {α : Type} :
    ∀ (l : List (String × α)) (k : String) (v : α),
      (l.map Prod.fst).Nodup → (k, v) ∈ l → mapLookup l k = some v
  | [], k, v, _, h => absurd h (by simp)
  | kv :: rest, k, v, hnd, h => by
    rw [mapLookup]
    rcases List.mem_cons.mp h with heq | hmem
    · subst heq
      rw [if_pos rfl]
    · by_cases hk : kv.1 = k
      · exfalso
        have hmap : (kv.1 :: rest.map Prod.fst).Nodup := by simpa using hnd
        have hnotin : kv.1 ∉ rest.map Prod.fst := (List.nodup_cons.mp hmap).1
        have hmm : k ∈ rest.map Prod.fst := List.mem_map_of_mem Prod.fst hmem
        rw [hk] at hnotin
        exact hnotin hmm
      · rw [if_neg hk]
        exact mapLookup_of_mem_nodup rest k v (by
          have : (kv.1 :: rest.map Prod.fst).Nodup := by simpa using hnd
          exact (List.nodup_cons.mp this).2) hmem

theorem updateGroup_lookup (groups : List (String × FeeGroup)) (k : String)
    (f : FeeGroup → FeeGroup) (k' : String) :
    mapLookup (updateGroup groups k f) k' =
      if k' = k then Option.map f (mapLookup groups k') else mapLookup groups k' := by
  induction groups with
  | nil =>
    by_cases h : k' = k
    · rw [if_pos h]; rfl
    · rw [if_neg h]; rfl
  | cons kv rest ih =>
    rw [updateGroup] at ih ⊢
    simp only [List.map_cons]
    by_cases hk : kv.1 = k
    · rw [if_pos hk]
      show mapLookup ((k, f kv.2) :: _) k' = _
      rw [mapLookup, mapLookup]
      by_cases hk' : k = k'
      · rw [if_pos hk', if_pos (hk.trans hk'), if_pos hk'.symm]
        rfl
      · rw [if_neg hk', if_neg (fun h => hk' (hk ▸ h)), ih]
    · rw [if_neg hk]
      show mapLookup (kv :: _) k' = _
      rw [mapLookup, mapLookup]
      by_cases hk' : kv.1 = k'
      · rw [if_pos hk', if_pos hk']
        rw [if_neg (fun h : k' = k => hk (hk'.trans h))]
      · rw [if_neg hk', if_neg hk', ih]

theorem updateGroup_keys (groups : List (String × FeeGroup)) (k : String)
    (f : FeeGroup → FeeGroup) :
    (updateGroup groups k f).map Prod.fst = groups.map Prod.fst := by
  induction groups with
  | nil => rfl
  | cons kv rest ih =>
    rw [updateGroup] at ih ⊢
    simp only [List.map_cons]
    by_cases hk : kv.1 = k
    · rw [if_pos hk]
      simp only [List.map_cons, ih]
      rw [hk]
    · rw [if_neg hk]
      simp only [List.map_cons, ih]

/-! ## Fee fold characterization -/

theorem isTradeLike_of_fee : isTradeLike .fee = false := rfl

theorem feeSum_cons (rows : List NRow) (fi : Nat) (rest : List Nat) :
    feeSum rows (fi :: rest) = feeMag (rows.getD fi default) + feeSum rows rest := by
  rw [feeSum, feeSum, List.map_cons, List.sum_cons]

theorem assetCombine_not_falsy (rows : List NRow) (a : Option String) (idxs : List Nat)
    (h : jsFalsyStr a = false) : assetCombine rows a idxs = a := by
  rw [assetCombine, if_neg (by rw [h]; exact Bool.false_ne_true)]

theorem feeFold_go (result : List NRow) :
    ∀ (idxs : List Nat) (t : Rat) (a : Option String),
      (idxs.foldl
        (fun acc fi =>
          let f := result.getD fi default
          let explicit := numOrNull f.fee_amount
          let derived := f.base_amount.map (|·|)
          let add := ((explicit <|> derived).getD 0)
          (acc.1 + add,
           if jsFalsyStr acc.2 ∧ ¬ jsFalsyStr f.fee_asset then f.fee_asset else acc.2))
        (t, a)) = (t + feeSum result idxs, assetCombine result a idxs)
  | [], t, a => by
    simp only [List.foldl_nil, feeSum, List.map_nil, List.sum_nil]
    rw [assetCombine]
    by_cases hf : jsFalsyStr a = true
    · rw [if_pos hf]
      simp only [firstTruthyAsset, Option.none_orElse]
      rw [Rat.add_zero]
    · rw [if_neg hf, Rat.add_zero]
  | fi :: rest, t, a => by
    rw [List.foldl_cons]
    rw [feeFold_go result rest]
    set f := result.getD fi default with hfdef
    have hsum : t + feeMag f + feeSum result rest = t + feeSum result (fi :: rest) := by
      rw [feeSum_cons, ← hfdef, ← add_assoc]
    by_cases ha : jsFalsyStr a = true
    · by_cases hfa : jsFalsyStr f.fee_asset = true
      · have hcond : (jsFalsyStr a ∧ ¬ jsFalsyStr f.fee_asset) = False := by
          simp [ha, hfa]
        simp only [hcond, if_false]
        rw [Prod.mk.injEq]
        refine ⟨hsum, ?_⟩
        rw [assetCombine, assetCombine, if_pos ha, if_pos ha]
        rw [firstTruthyAsset, ← hfdef, if_pos hfa]
      · have hcond : (jsFalsyStr a ∧ ¬ jsFalsyStr f.fee_asset) = True := by
          simp [ha, hfa]
        simp only [hcond, if_true]
        rw [Prod.mk.injEq]
        refine ⟨hsum, ?_⟩
        have hnf : jsFalsyStr f.fee_asset = false := by
          cases hbe : jsFalsyStr f.fee_asset with
          | false => rfl
          | true => exact absurd hbe hfa
        rw [assetCombine_not_falsy result f.fee_asset rest hnf]
        rw [assetCombine, if_pos ha]
        rw [firstTruthyAsset, ← hfdef, if_neg (by rw [hnf]; exact Bool.false_ne_true)]
        obtain ⟨s, hs⟩ : ∃ s, f.fee_asset = some s := by
          cases hfe : f.fee_asset with
          | none => rw [hfe] at hnf; exact absurd hnf (by simp [jsFalsyStr])
          | some s => exact ⟨s, rfl⟩
        rw [hs, Option.some_orElse]
    · have hna : jsFalsyStr a = false := by
        cases hbe : jsFalsyStr a with
        | false => rfl
        | true => exact absurd hbe ha
      have hcond : (jsFalsyStr a ∧ ¬ jsFalsyStr f.fee_asset) = False := by
        simp [hna]
      simp only [hcond, if_false]
      rw [Prod.mk.injEq]
      refine ⟨hsum, ?_⟩
      rw [assetCombine_not_falsy result a rest hna,
          assetCombine_not_falsy result a (fi :: rest) hna]

theorem feeFold_eq (result : List NRow) (idxs : List Nat) (a0 : Option String) :
    feeFold result idxs a0 = (feeSum result idxs, assetCombine result a0 idxs) := by
  have h := feeFold_go result idxs 0 a0
  rw [feeFold, h, Rat.zero_add]

theorem feeSum_congr (A B : List NRow) (idxs : List Nat)
    (h : ∀ fi ∈ idxs, A.getD fi default = B.getD fi default) :
    feeSum A idxs = feeSum B idxs := by
  rw [feeSum, feeSum]
  congr 1
  apply List.map_congr_left
  intro fi hfi
  rw [h fi hfi]

theorem firstTruthyAsset_congr (A B : List NRow) :
    ∀ (idxs : List Nat), (∀ fi ∈ idxs, A.getD fi default = B.getD fi default) →
      firstTruthyAsset A idxs = firstTruthyAsset B idxs
  | [], _ => rfl
  | fi :: rest, h => by
    rw [firstTruthyAsset, firstTruthyAsset, h fi (List.mem_cons_self fi rest)]
    rw [firstTruthyAsset_congr A B rest (fun j hj => h j (List.mem_cons_of_mem fi hj))]

theorem assetCombine_congr (A B : List NRow) (a0 : Option String) (idxs : List Nat)
    (h : ∀ fi ∈ idxs, A.getD fi default = B.getD fi default) :
    assetCombine A a0 idxs = assetCombine B a0 idxs := by
  rw [assetCombine, assetCombine, firstTruthyAsset_congr A B idxs h]

/-! ## buildGroups invariant -/

theorem pairwise_lt_append_singleton (l : List Nat) (n : Nat)
    (hpw : l.Pairwise (· < ·)) (hb : ∀ i ∈ l, i < n) : (l ++ [n]).Pairwise (· < ·) := by
  rw [List.pairwise_append]
  refine ⟨hpw, List.pairwise_singleton _ _, fun a ha b hb' => ?_⟩
  have := hb a ha
  simp only [List.mem_singleton] at hb'
  omega

theorem mapLookup_singleton {α : Type} (oid k : String) (v : α) :
    mapLookup [(oid, v)] k = if oid = k then some v else none := rfl

theorem groupStep_inv (rows : List NRow) (n : Nat) (acc : List (String × FeeGroup))
    (hn : n < rows.length) (hinv : GroupsInv rows n acc) :
    GroupsInv rows (n + 1) (groupStep acc n (rows.getD n default)) := by
  obtain ⟨hkeys, hsound, hcomp⟩ := hinv
  rw [groupStep]
  cases htruthy : jsTruthyStr (rows.getD n default).order_id with
  | none =>
    refine ⟨hkeys, ?_, ?_⟩
    · intro oid g hlook
      obtain ⟨h1, h2, h3, h4⟩ := hsound oid g hlook
      refine ⟨fun i hi => ?_, fun i hi => ?_, h3, h4⟩
      · obtain ⟨ha, hb, hc, hd⟩ := h1 i hi
        exact ⟨by omega, hb, hc, hd⟩
      · obtain ⟨ha, hb, hc, hd⟩ := h2 i hi
        exact ⟨by omega, hb, hc, hd⟩
    · intro i hi hilen oid' htr
      by_cases hin : i < n
      · exact hcomp i hin hilen oid' htr
      · have hieq : n = i := by omega
        subst hieq
        rw [htruthy] at htr
        cases htr
  | some oid =>
    set r := rows.getD n default with hrdef
    set G' := if (mapLookup acc oid).isSome then acc else acc ++ [(oid, ⟨[], []⟩)] with hG'
    have hG'keys : (G'.map Prod.fst).Nodup := by
      rw [hG']
      by_cases hs : (mapLookup acc oid).isSome
      · rw [if_pos hs]; exact hkeys
      · rw [if_neg hs]
        rw [List.map_append, List.nodup_append]
        refine ⟨hkeys, by simp, ?_⟩
        intro a ha
        simp only [List.map_cons, List.map_nil, List.mem_cons, List.not_mem_nil, or_false]
        intro haeq
        subst haeq
        have hnone : mapLookup acc a = none := by
          cases hl : mapLookup acc a with
          | none => rfl
          | some v => rw [hl] at hs; simp at hs
        exact (mapLookup_eq_none_iff acc a).mp hnone ha
    have hG'ne : ∀ k, k ≠ oid → mapLookup G' k = mapLookup acc k := by
      intro k hk
      rw [hG']
      by_cases hs : (mapLookup acc oid).isSome
      · rw [if_pos hs]
      · rw [if_neg hs, mapLookup_append]
        cases hl : mapLookup acc k with
        | some v => rfl
        | none =>
          rw [mapLookup_singleton, if_neg (fun h => hk h.symm)]
    have hG'oid : ∃ g0, mapLookup G' oid = some g0 ∧
        (mapLookup acc oid = some g0 ∨ (mapLookup acc oid = none ∧ g0 = ⟨[], []⟩)) := by
      rw [hG']
      by_cases hs : (mapLookup acc oid).isSome
      · obtain ⟨g0, hg0⟩ := Option.isSome_iff_exists.mp hs
        rw [if_pos hs]
        exact ⟨g0, hg0, Or.inl hg0⟩
      · have hnone : mapLookup acc oid = none := by
          cases hl : mapLookup acc oid with
          | none => rfl
          | some v => rw [hl] at hs; simp at hs
        rw [if_neg hs, mapLookup_append, hnone, mapLookup_singleton, if_pos rfl]
        exact ⟨⟨[], []⟩, rfl, Or.inr ⟨rfl, rfl⟩⟩
    obtain ⟨g0, hg0look, hg0src⟩ := hG'oid
    have hg0trades : ∀ i ∈ g0.tradeIdxs, i < n ∧ i < rows.length ∧
        isTradeLike (rows.getD i default).txn_type = true ∧
        jsTruthyStr (rows.getD i default).order_id = some oid := by
      rcases hg0src with h | ⟨_, h⟩
      · exact (hsound oid g0 h).1
      · subst h; intro i hi; simp at hi
    have hg0fees : ∀ i ∈ g0.feeIdxs, i < n ∧ i < rows.length ∧
        (rows.getD i default).txn_type = .fee ∧
        jsTruthyStr (rows.getD i default).order_id = some oid := by
      rcases hg0src with h | ⟨_, h⟩
      · exact (hsound oid g0 h).2.1
      · subst h; intro i hi; simp at hi
    have hg0pw : g0.tradeIdxs.Pairwise (· < ·) ∧ g0.feeIdxs.Pairwise (· < ·) := by
      rcases hg0src with h | ⟨_, h⟩
      · exact ⟨(hsound oid g0 h).2.2.1, (hsound oid g0 h).2.2.2⟩
      · subst h; exact ⟨List.Pairwise.nil, List.Pairwise.nil⟩
    show GroupsInv rows (n + 1)
      (if r.txn_type = TxnType.fee then
        updateGroup G' oid (fun g => { g with feeIdxs := g.feeIdxs ++ [n] })
      else if isTradeLike r.txn_type = true then
        updateGroup G' oid (fun g => { g with tradeIdxs := g.tradeIdxs ++ [n] })
      else G')
    by_cases hfee : r.txn_type = .fee
    · rw [if_pos hfee]
      refine ⟨by rw [updateGroup_keys]; exact hG'keys, ?_, ?_⟩
      · intro oid' g'' hlook
        rw [updateGroup_lookup] at hlook
        by_cases hoid : oid' = oid
        · rw [if_pos hoid, hoid, hg0look] at hlook
          cases hlook
          refine ⟨fun i hi => ?_, fun i hi => ?_, ?_, ?_⟩
          · obtain ⟨ha, hb, hc, hd⟩ := hg0trades i hi
            exact ⟨by omega, hb, hc, hd ▸ (by rw [hoid])⟩
          · rcases List.mem_append.mp hi with h | h
            · obtain ⟨ha, hb, hc, hd⟩ := hg0fees i h
              exact ⟨by omega, hb, hc, hd ▸ (by rw [hoid])⟩
            · simp only [List.mem_singleton] at h
              subst h
              exact ⟨by omega, hn, by rw [← hrdef]; exact hfee,
                by rw [← hrdef, htruthy, hoid]⟩
          · exact hg0pw.1
          · exact pairwise_lt_append_singleton _ _ hg0pw.2 (fun i hi => (hg0fees i hi).1)
        · rw [if_neg hoid] at hlook
          rw [hG'ne oid' hoid] at hlook
          obtain ⟨h1, h2, h3, h4⟩ := hsound oid' g'' hlook
          refine ⟨fun i hi => ?_, fun i hi => ?_, h3, h4⟩
          · obtain ⟨ha, hb, hc, hd⟩ := h1 i hi
            exact ⟨by omega, hb, hc, hd⟩
          · obtain ⟨ha, hb, hc, hd⟩ := h2 i hi
            exact ⟨by omega, hb, hc, hd⟩
      · intro i hi hilen oid' htr
        by_cases hin : i < n
        · obtain ⟨hfeeside, htrside⟩ := hcomp i hin hilen oid' htr
          constructor
          · intro htype
            obtain ⟨g, hg, hmem⟩ := hfeeside htype
            by_cases hoid : oid' = oid
            · subst hoid
              have hg0eq : g0 = g := by
                rcases hg0src with h | ⟨h, _⟩
                · rw [h] at hg
                  exact Option.some.inj hg
                · rw [h] at hg
                  exact Option.noConfusion hg
              refine ⟨⟨g.tradeIdxs, g.feeIdxs ++ [n]⟩, ?_, by simp [hmem]⟩
              rw [updateGroup_lookup, if_pos rfl, hg0look, hg0eq]
              rfl
            · exact ⟨g, by rw [updateGroup_lookup, if_neg hoid, hG'ne oid' hoid]; exact hg,
                hmem⟩
          · intro htype
            obtain ⟨g, hg, hmem⟩ := htrside htype
            by_cases hoid : oid' = oid
            · subst hoid
              have hg0eq : g0 = g := by
                rcases hg0src with h | ⟨h, _⟩
                · rw [h] at hg
                  exact Option.some.inj hg
                · rw [h] at hg
                  exact Option.noConfusion hg
              refine ⟨⟨g.tradeIdxs, g.feeIdxs ++ [n]⟩, ?_, by simp [hmem]⟩
              rw [updateGroup_lookup, if_pos rfl, hg0look, hg0eq]
              rfl
            · exact ⟨g, by rw [updateGroup_lookup, if_neg hoid, hG'ne oid' hoid]; exact hg,
                hmem⟩
        · have hieq : n = i := by omega
          subst hieq
          rw [← hrdef, htruthy] at htr
          cases htr
          constructor
          · intro _
            refine ⟨⟨g0.tradeIdxs, g0.feeIdxs ++ [n]⟩, ?_, by simp⟩
            rw [updateGroup_lookup, if_pos rfl, hg0look]
            rfl
          · intro htype
            rw [← hrdef, hfee] at htype
            rw [isTradeLike_of_fee] at htype
            cases htype
    · rw [if_neg hfee]
      by_cases htl : isTradeLike r.txn_type = true
      · rw [if_pos htl]
        refine ⟨by rw [updateGroup_keys]; exact hG'keys, ?_, ?_⟩
        · intro oid' g'' hlook
          rw [updateGroup_lookup] at hlook
          by_cases hoid : oid' = oid
          · rw [if_pos hoid, hoid, hg0look] at hlook
            cases hlook
            refine ⟨fun i hi => ?_, fun i hi => ?_, ?_, ?_⟩
            · rcases List.mem_append.mp hi with h | h
              · obtain ⟨ha, hb, hc, hd⟩ := hg0trades i h
                exact ⟨by omega, hb, hc, hd ▸ (by rw [hoid])⟩
              · simp only [List.mem_singleton] at h
                subst h
                exact ⟨by omega, hn, by rw [← hrdef]; exact htl,
                  by rw [← hrdef, htruthy, hoid]⟩
            · obtain ⟨ha, hb, hc, hd⟩ := hg0fees i hi
              exact ⟨by omega, hb, hc, hd ▸ (by rw [hoid])⟩
            · exact pairwise_lt_append_singleton _ _ hg0pw.1 (fun i hi => (hg0trades i hi).1)
            · exact hg0pw.2
          · rw [if_neg hoid] at hlook
            rw [hG'ne oid' hoid] at hlook
            obtain ⟨h1, h2, h3, h4⟩ := hsound oid' g'' hlook
            refine ⟨fun i hi => ?_, fun i hi => ?_, h3, h4⟩
            · obtain ⟨ha, hb, hc, hd⟩ := h1 i hi
              exact ⟨by omega, hb, hc, hd⟩
            · obtain ⟨ha, hb, hc, hd⟩ := h2 i hi
              exact ⟨by omega, hb, hc, hd⟩
        · intro i hi hilen oid' htr
          by_cases hin : i < n
          · obtain ⟨hfeeside, htrside⟩ := hcomp i hin hilen oid' htr
            constructor
            · intro htype
              obtain ⟨g, hg, hmem⟩ := hfeeside htype
              by_cases hoid : oid' = oid
              · subst hoid
                have hg0eq : g0 = g := by
                  rcases hg0src with h | ⟨h, _⟩
                  · rw [h] at hg
                    exact Option.some.inj hg
                  · rw [h] at hg
                    exact Option.noConfusion hg
                refine ⟨⟨g.tradeIdxs ++ [n], g.feeIdxs⟩, ?_, by simp [hmem]⟩
                rw [updateGroup_lookup, if_pos rfl, hg0look, hg0eq]
                rfl
              · exact ⟨g, by rw [updateGroup_lookup, if_neg hoid, hG'ne oid' hoid]; exact hg,
                  hmem⟩
            · intro htype
              obtain ⟨g, hg, hmem⟩ := htrside htype
              by_cases hoid : oid' = oid
              · subst hoid
                have hg0eq : g0 = g := by
                  rcases hg0src with h | ⟨h, _⟩
                  · rw [h] at hg
                    exact Option.some.inj hg
                  · rw [h] at hg
                    exact Option.noConfusion hg
                refine ⟨⟨g.tradeIdxs ++ [n], g.feeIdxs⟩, ?_, by simp [hmem]⟩
                rw [updateGroup_lookup, if_pos rfl, hg0look, hg0eq]
                rfl
              · exact ⟨g, by rw [updateGroup_lookup, if_neg hoid, hG'ne oid' hoid]; exact hg,
                  hmem⟩
          · have hieq : n = i := by omega
            subst hieq
            rw [← hrdef, htruthy] at htr
            cases htr
            constructor
            · intro htype
              rw [← hrdef] at htype
              exact absurd htype hfee
            · intro _
              refine ⟨⟨g0.tradeIdxs ++ [n], g0.feeIdxs⟩, ?_, by simp⟩
              rw [updateGroup_lookup, if_pos rfl, hg0look]
              rfl
      · rw [if_neg htl]
        refine ⟨hG'keys, ?_, ?_⟩
        · intro oid' g'' hlook
          by_cases hoid : oid' = oid
          · rw [hoid, hg0look] at hlook
            cases hlook
            refine ⟨fun i hi => ?_, fun i hi => ?_, hg0pw.1, hg0pw.2⟩
            · obtain ⟨ha, hb, hc, hd⟩ := hg0trades i hi
              exact ⟨by omega, hb, hc, hd ▸ (by rw [hoid])⟩
            · obtain ⟨ha, hb, hc, hd⟩ := hg0fees i hi
              exact ⟨by omega, hb, hc, hd ▸ (by rw [hoid])⟩
          · rw [hG'ne oid' hoid] at hlook
            obtain ⟨h1, h2, h3, h4⟩ := hsound oid' g'' hlook
            refine ⟨fun i hi => ?_, fun i hi => ?_, h3, h4⟩
            · obtain ⟨ha, hb, hc, hd⟩ := h1 i hi
              exact ⟨by omega, hb, hc, hd⟩
            · obtain ⟨ha, hb, hc, hd⟩ := h2 i hi
              exact ⟨by omega, hb, hc, hd⟩
        · intro i hi hilen oid' htr
          by_cases hin : i < n
          · obtain ⟨hfeeside, htrside⟩ := hcomp i hin hilen oid' htr
            constructor
            · intro htype
              obtain ⟨g, hg, hmem⟩ := hfeeside htype
              by_cases hoid : oid' = oid
              · subst hoid
                rcases hg0src with h | ⟨h, _⟩
                · refine ⟨g0, hg0look, ?_⟩
                  rw [h] at hg
                  rw [Option.some.inj hg]
                  exact hmem
                · rw [h] at hg
                  exact Option.noConfusion hg
              · exact ⟨g, by rw [hG'ne oid' hoid]; exact hg, hmem⟩
            · intro htype
              obtain ⟨g, hg, hmem⟩ := htrside htype
              by_cases hoid : oid' = oid
              · subst hoid
                rcases hg0src with h | ⟨h, _⟩
                · refine ⟨g0, hg0look, ?_⟩
                  rw [h] at hg
                  rw [Option.some.inj hg]
                  exact hmem
                · rw [h] at hg
                  exact Option.noConfusion hg
              · exact ⟨g, by rw [hG'ne oid' hoid]; exact hg, hmem⟩
          · have hieq : n = i := by omega
            subst hieq
            rw [← hrdef, htruthy] at htr
            cases htr
            constructor
            · intro htype
              rw [← hrdef] at htype
              exact absurd htype hfee
            · intro htype
              rw [← hrdef] at htype
              exact absurd htype htl

theorem GroupsInv_zero (rows : List NRow) : GroupsInv rows 0 [] := by
  refine ⟨by simp, ?_, ?_⟩
  · intro oid g hlook
    exact Option.noConfusion hlook
  · intro i hi
    omega

theorem groupsFold_inv (rows : List NRow) :
    ∀ (l : List NRow) (k : Nat) (acc : List (String × FeeGroup)),
      rows.drop k = l → GroupsInv rows k acc →
      GroupsInv rows (k + l.length)
        ((List.enumFrom k l).foldl (fun acc p => groupStep acc p.1 p.2) acc)
  | [], k, acc, _, hinv => by
    simpa using hinv
  | x :: xs, k, acc, hdrop, hinv => by
    have hklen : k < rows.length := by
      have := congrArg List.length hdrop
      simp only [List.length_drop, List.length_cons] at this
      omega
    have hx : rows.getD k default = x := by
      have h1 : rows[k]? = some x := by
        have h2 := List.getElem?_drop rows k 0
        rw [hdrop] at h2
        simpa using h2.symm
      simp [List.getD_eq_getElem?_getD, h1]
    have hdrop' : rows.drop (k + 1) = xs := by
      have h := congrArg (List.drop 1) hdrop
      rw [List.drop_drop] at h
      simpa using h
    have hstep := groupStep_inv rows k acc hklen hinv
    rw [hx] at hstep
    have hrec := groupsFold_inv rows xs (k + 1) (groupStep acc k x) hdrop' hstep
    have hlen : k + (x :: xs).length = (k + 1) + xs.length := by
      simp only [List.length_cons]
      omega
    rw [hlen]
    exact hrec

theorem buildGroups_inv (rows : List NRow) :
    GroupsInv rows rows.length (buildGroups rows) := by
  have h := groupsFold_inv rows rows 0 [] (by simp) (GroupsInv_zero rows)
  rw [show (0 : Nat) + rows.length = rows.length by omega] at h
  exact h

theorem buildGroups_entry (rows : List NRow) (kg : String × FeeGroup)
    (hmem : kg ∈ buildGroups rows) :
    SoundEntry rows kg.1 kg.2 ∧ kg.2.tradeIdxs.Pairwise (· < ·) ∧
      kg.2.feeIdxs.Pairwise (· < ·) := by
  obtain ⟨hkeys, hsound, _⟩ := buildGroups_inv rows
  have hlook : mapLookup (buildGroups rows) kg.1 = some kg.2 :=
    mapLookup_of_mem_nodup (buildGroups rows) kg.1 kg.2 hkeys (by
      cases kg
      exact hmem)
  obtain ⟨h1, h2, h3, h4⟩ := hsound kg.1 kg.2 hlook
  refine ⟨⟨fun i hi => ?_, fun i hi => ?_⟩, h3, h4⟩
  · obtain ⟨_, hb, hc, hd⟩ := h1 i hi
    exact ⟨hb, hc, hd⟩
  · obtain ⟨_, hb, hc, hd⟩ := h2 i hi
    exact ⟨hb, hc, hd⟩

theorem buildGroups_keys_nodup (rows : List NRow) :
    ((buildGroups rows).map Prod.fst).Nodup := (buildGroups_inv rows).1

/-! ## Merge pass characterization -/

theorem mergePass_eq_foldl (rows : List NRow) (groups : List (String × FeeGroup)) :
    mergePass rows groups = groups.foldl mergeStep (rows, []) := rfl

theorem mergeStep_noTrade (acc : List NRow × List Nat) (oid : String) (gf : List Nat) :
    mergeStep acc (oid, ⟨[], gf⟩) = acc := rfl

theorem mergeStep_noFee (acc : List NRow × List Nat) (oid : String) (i0 : Nat)
    (tl : List Nat) : mergeStep acc (oid, ⟨i0 :: tl, []⟩) = acc := rfl

theorem mergeStep_fire (cur : List NRow) (rem : List Nat) (oid : String) (i0 : Nat)
    (tl : List Nat) (fj : Nat) (fl : List Nat) :
    mergeStep (cur, rem) (oid, ⟨i0 :: tl, fj :: fl⟩) =
      (cur.set i0
         { cur.getD i0 default with
           fee_asset := (feeFold cur (fj :: fl)
             ((cur.getD i0 default).fee_asset <|> (cur.getD i0 default).quote_asset)).2,
           fee_amount := some (((numOrNull (cur.getD i0 default).fee_amount).getD 0) +
             (feeFold cur (fj :: fl)
               ((cur.getD i0 default).fee_asset <|> (cur.getD i0 default).quote_asset)).1) },
       rem ++ (fj :: fl)) := rfl

theorem mergedHeads_cons_noTrade (oid : String) (gf : List Nat)
    (rest : List (String × FeeGroup)) :
    mergedHeads ((oid, ⟨[], gf⟩) :: rest) = mergedHeads rest := rfl

theorem mergedHeads_cons_noFee (oid : String) (i0 : Nat) (tl : List Nat)
    (rest : List (String × FeeGroup)) :
    mergedHeads ((oid, ⟨i0 :: tl, []⟩) :: rest) = mergedHeads rest := rfl

theorem mergedHeads_cons_fire (oid : String) (i0 : Nat) (tl : List Nat) (fj : Nat)
    (fl : List Nat) (rest : List (String × FeeGroup)) :
    mergedHeads ((oid, ⟨i0 :: tl, fj :: fl⟩) :: rest) = i0 :: mergedHeads rest := rfl

theorem mergedFeeIdxs_cons_noTrade (oid : String) (gf : List Nat)
    (rest : List (String × FeeGroup)) :
    mergedFeeIdxs ((oid, ⟨[], gf⟩) :: rest) = mergedFeeIdxs rest := rfl

theorem mergedFeeIdxs_cons_noFee (oid : String) (i0 : Nat) (tl : List Nat)
    (rest : List (String × FeeGroup)) :
    mergedFeeIdxs ((oid, ⟨i0 :: tl, []⟩) :: rest) = mergedFeeIdxs rest := rfl

theorem mergedFeeIdxs_cons_fire (oid : String) (i0 : Nat) (tl : List Nat) (fj : Nat)
    (fl : List Nat) (rest : List (String × FeeGroup)) :
    mergedFeeIdxs ((oid, ⟨i0 :: tl, fj :: fl⟩) :: rest) =
      (fj :: fl) ++ mergedFeeIdxs rest := rfl

theorem mem_mergedHeads_elim :
    ∀ (gs : List (String × FeeGroup)) (i : Nat), i ∈ mergedHeads gs →
      ∃ kg ∈ gs, ∃ tl, kg.2.tradeIdxs = i :: tl ∧ kg.2.feeIdxs ≠ []
  | [], i, h => absurd h (by simp [mergedHeads])
  | ⟨oid, ⟨gt, gf⟩⟩ :: rest, i, h => by
    cases gt with
    | nil =>
      rw [mergedHeads_cons_noTrade] at h
      obtain ⟨kg, hkg, tl, htr, hfe⟩ := mem_mergedHeads_elim rest i h
      exact ⟨kg, List.mem_cons_of_mem _ hkg, tl, htr, hfe⟩
    | cons i0 tl0 =>
      cases gf with
      | nil =>
        rw [mergedHeads_cons_noFee] at h
        obtain ⟨kg, hkg, tl, htr, hfe⟩ := mem_mergedHeads_elim rest i h
        exact ⟨kg, List.mem_cons_of_mem _ hkg, tl, htr, hfe⟩
      | cons fj fl =>
        rw [mergedHeads_cons_fire] at h
        rcases List.mem_cons.mp h with heq | hmem
        · subst heq
          exact ⟨_, List.mem_cons_self _ _, tl0, rfl, by simp⟩
        · obtain ⟨kg, hkg, tl, htr, hfe⟩ := mem_mergedHeads_elim rest i hmem
          exact ⟨kg, List.mem_cons_of_mem _ hkg, tl, htr, hfe⟩

theorem mem_mergedFeeIdxs_elim :
    ∀ (gs : List (String × FeeGroup)) (i : Nat), i ∈ mergedFeeIdxs gs →
      ∃ kg ∈ gs, i ∈ kg.2.feeIdxs ∧ kg.2.tradeIdxs ≠ []
  | [], i, h => absurd h (by simp [mergedFeeIdxs])
  | ⟨oid, ⟨gt, gf⟩⟩ :: rest, i, h => by
    cases gt with
    | nil =>
      rw [mergedFeeIdxs_cons_noTrade] at h
      obtain ⟨kg, hkg, hif, hne⟩ := mem_mergedFeeIdxs_elim rest i h
      exact ⟨kg, List.mem_cons_of_mem _ hkg, hif, hne⟩
    | cons i0 tl0 =>
      cases gf with
      | nil =>
        rw [mergedFeeIdxs_cons_noFee] at h
        obtain ⟨kg, hkg, hif, hne⟩ := mem_mergedFeeIdxs_elim rest i h
        exact ⟨kg, List.mem_cons_of_mem _ hkg, hif, hne⟩
      | cons fj fl =>
        rw [mergedFeeIdxs_cons_fire] at h
        rcases List.mem_append.mp h with hmem | hmem
        · exact ⟨_, List.mem_cons_self _ _, hmem, by simp⟩
        · obtain ⟨kg, hkg, hif, hne⟩ := mem_mergedFeeIdxs_elim rest i hmem
          exact ⟨kg, List.mem_cons_of_mem _ hkg, hif, hne⟩

theorem mem_mergedFeeIdxs_intro :
    ∀ (gs : List (String × FeeGroup)) (kg : String × FeeGroup), kg ∈ gs →
      kg.2.tradeIdxs ≠ [] → ∀ i ∈ kg.2.feeIdxs, i ∈ mergedFeeIdxs gs
  | [], kg, hkg, _, _, _ => absurd hkg (by simp)
  | ⟨oid, ⟨gt, gf⟩⟩ :: rest, kg, hkg, htne, i, hif => by
    rcases List.mem_cons.mp hkg with heq | hmem
    · subst heq
      cases hgt : gt with
      | nil => exact absurd (by simpa using hgt) htne
      | cons i0 tl0 =>
        subst hgt
        cases hgf : gf with
        | nil =>
          rw [hgf] at hif
          exact absurd hif (by simp)
        | cons fj fl =>
          subst hgf
          rw [mergedFeeIdxs_cons_fire]
          exact List.mem_append.mpr (Or.inl hif)
    · have hrec := mem_mergedFeeIdxs_intro rest kg hmem htne i hif
      cases gt with
      | nil =>
        rw [mergedFeeIdxs_cons_noTrade]
        exact hrec
      | cons i0 tl0 =>
        cases gf with
        | nil =>
          rw [mergedFeeIdxs_cons_noFee]
          exact hrec
        | cons fj fl =>
          rw [mergedFeeIdxs_cons_fire]
          exact List.mem_append.mpr (Or.inr hrec)

theorem mergedFeeIdxs_bound (rows : List NRow) (gs : List (String × FeeGroup))
    (hsnd : ∀ kg ∈ gs, SoundEntry rows kg.1 kg.2) :
    ∀ j ∈ mergedFeeIdxs gs, j < rows.length := by
  intro j hj
  obtain ⟨kg, hkg, hjf, _⟩ := mem_mergedFeeIdxs_elim gs j hj
  exact ((hsnd kg hkg).2 j hjf).1

theorem mergedFeeIdxs_nodup (rows : List NRow) :
    ∀ (gs : List (String × FeeGroup)),
      (∀ kg ∈ gs, SoundEntry rows kg.1 kg.2 ∧ kg.2.feeIdxs.Pairwise (· < ·)) →
      (gs.map Prod.fst).Nodup →
      (mergedFeeIdxs gs).Nodup
  | [], _, _ => by simp [mergedFeeIdxs]
  | ⟨oid, ⟨gt, gf⟩⟩ :: rest, hsnd, hkeys => by
    have hkeys' : (rest.map Prod.fst).Nodup := by
      simp only [List.map_cons, List.nodup_cons] at hkeys
      exact hkeys.2
    have hoidnot : oid ∉ rest.map Prod.fst := by
      simp only [List.map_cons, List.nodup_cons] at hkeys
      exact hkeys.1
    have hrest := mergedFeeIdxs_nodup rows rest
      (fun kg hkg => hsnd kg (List.mem_cons_of_mem _ hkg)) hkeys'
    cases gt with
    | nil =>
      rw [mergedFeeIdxs_cons_noTrade]
      exact hrest
    | cons i0 tl0 =>
      cases gf with
      | nil =>
        rw [mergedFeeIdxs_cons_noFee]
        exact hrest
      | cons fj fl =>
        rw [mergedFeeIdxs_cons_fire]
        rw [List.nodup_append]
        refine ⟨?_, hrest, ?_⟩
        · have hpw := (hsnd _ (List.mem_cons_self _ _)).2
          exact hpw.imp (fun h => Nat.ne_of_lt h)
        · intro a ha hamem
          obtain ⟨kg, hkg, haf, _⟩ := mem_mergedFeeIdxs_elim rest a hamem
          have h1 : jsTruthyStr (rows.getD a default).order_id = some oid :=
            (((hsnd _ (List.mem_cons_self _ _)).1).2 a ha).2.2
          have h2 : jsTruthyStr (rows.getD a default).order_id = some kg.1 :=
            (((hsnd kg (List.mem_cons_of_mem _ hkg)).1).2 a haf).2.2
          have hko : kg.1 = oid := by
            rw [h1] at h2
            exact (Option.some.inj h2).symm
          rw [← hko] at hoidnot
          exact hoidnot (List.mem_map_of_mem Prod.fst hkg)

theorem mergePass_go (rows : List NRow) :
    ∀ (gs : List (String × FeeGroup)) (cur : List NRow) (rem : List Nat),
      cur.length = rows.length →
      (∀ kg ∈ gs, SoundEntry rows kg.1 kg.2) →
      (gs.map Prod.fst).Nodup →
      (∀ kg ∈ gs, ∀ i ∈ kg.2.feeIdxs, cur.getD i default = rows.getD i default) →
      (∀ kg ∈ gs, ∀ j ∈ kg.2.tradeIdxs, cur.getD j default = rows.getD j default) →
      (gs.foldl mergeStep (cur, rem)).1.length = rows.length ∧
      (gs.foldl mergeStep (cur, rem)).2 = rem ++ mergedFeeIdxs gs ∧
      (∀ i, i ∉ mergedHeads gs →
        (gs.foldl mergeStep (cur, rem)).1.getD i default = cur.getD i default) ∧
      (∀ kg ∈ gs, ∀ i0 tl, kg.2.tradeIdxs = i0 :: tl → kg.2.feeIdxs ≠ [] →
        (gs.foldl mergeStep (cur, rem)).1.getD i0 default = mergedRow rows kg.2 i0)
  | [], cur, rem, hlen, _, _, _, _ => by
    refine ⟨hlen, by simp [mergedFeeIdxs], fun i _ => rfl,
      fun kg hkg => absurd hkg (by simp)⟩
  | ⟨oid, ⟨gt, gf⟩⟩ :: rest, cur, rem, hlen, hsnd, hkeys, hfees, htrades => by
    have hkeys' : (rest.map Prod.fst).Nodup := by
      simp only [List.map_cons, List.nodup_cons] at hkeys
      exact hkeys.2
    have hoidnot : oid ∉ rest.map Prod.fst := by
      simp only [List.map_cons, List.nodup_cons] at hkeys
      exact hkeys.1
    have hsnd' : ∀ kg ∈ rest, SoundEntry rows kg.1 kg.2 :=
      fun kg hkg => hsnd kg (List.mem_cons_of_mem _ hkg)
    cases gt with
    | nil =>
      rw [List.foldl_cons, mergeStep_noTrade]
      have hrec := mergePass_go rows rest cur rem hlen hsnd' hkeys'
        (fun kg hkg => hfees kg (List.mem_cons_of_mem _ hkg))
        (fun kg hkg => htrades kg (List.mem_cons_of_mem _ hkg))
      refine ⟨hrec.1, ?_, ?_, ?_⟩
      · rw [mergedFeeIdxs_cons_noTrade]
        exact hrec.2.1
      · intro i hi
        rw [mergedHeads_cons_noTrade] at hi
        exact hrec.2.2.1 i hi
      · intro kg hkg i0' tl' htr hfe
        rcases List.mem_cons.mp hkg with heq | hmem
        · subst heq
          exact absurd htr (by simp)
        · exact hrec.2.2.2 kg hmem i0' tl' htr hfe
    | cons i0 tl0 =>
      cases gf with
      | nil =>
        rw [List.foldl_cons, mergeStep_noFee]
        have hrec := mergePass_go rows rest cur rem hlen hsnd' hkeys'
          (fun kg hkg => hfees kg (List.mem_cons_of_mem _ hkg))
          (fun kg hkg => htrades kg (List.mem_cons_of_mem _ hkg))
        refine ⟨hrec.1, ?_, ?_, ?_⟩
        · rw [mergedFeeIdxs_cons_noFee]
          exact hrec.2.1
        · intro i hi
          rw [mergedHeads_cons_noFee] at hi
          exact hrec.2.2.1 i hi
        · intro kg hkg i0' tl' htr hfe
          rcases List.mem_cons.mp hkg with heq | hmem
          · subst heq
            exact absurd rfl hfe
          · exact hrec.2.2.2 kg hmem i0' tl' htr hfe
      | cons fj fl =>
        have hself := hsnd _ (List.mem_cons_self _ _)
        have hi0 := hself.1 i0 (List.mem_cons_self _ _)
        have hmain : cur.getD i0 default = rows.getD i0 default :=
          htrades _ (List.mem_cons_self _ _) i0 (List.mem_cons_self _ _)
        have hfeesC : ∀ i ∈ fj :: fl, cur.getD i default = rows.getD i default :=
          fun i hi => hfees _ (List.mem_cons_self _ _) i hi
        have hveq : ({ cur.getD i0 default with
            fee_asset := (feeFold cur (fj :: fl)
              ((cur.getD i0 default).fee_asset <|> (cur.getD i0 default).quote_asset)).2,
            fee_amount := some (((numOrNull (cur.getD i0 default).fee_amount).getD 0) +
              (feeFold cur (fj :: fl)
                ((cur.getD i0 default).fee_asset <|>
                  (cur.getD i0 default).quote_asset)).1) } : NRow) =
            mergedRow rows ⟨i0 :: tl0, fj :: fl⟩ i0 := by
          rw [mergedRow]
          rw [hmain, feeFold_eq]
          rw [feeSum_congr cur rows (fj :: fl) hfeesC,
              assetCombine_congr cur rows _ (fj :: fl) hfeesC]
        rw [List.foldl_cons, mergeStep_fire, hveq]
        have hlen' : (cur.set i0 (mergedRow rows ⟨i0 :: tl0, fj :: fl⟩ i0)).length =
            rows.length := by
          rw [set_length]
          exact hlen
        have hfees' : ∀ kg ∈ rest, ∀ i ∈ kg.2.feeIdxs,
            (cur.set i0 (mergedRow rows ⟨i0 :: tl0, fj :: fl⟩ i0)).getD i default =
              rows.getD i default := by
          intro kg hkg i hi
          have hne : i ≠ i0 := by
            intro he
            have h1 := ((hsnd' kg hkg).2 i hi).2.1
            have h2 := hi0.2.1
            rw [he] at h1
            rw [h1] at h2
            exact absurd h2 (by decide)
          rw [getD_set_ne cur i0 i _ hne]
          exact hfees kg (List.mem_cons_of_mem _ hkg) i hi
        have htrades' : ∀ kg ∈ rest, ∀ j ∈ kg.2.tradeIdxs,
            (cur.set i0 (mergedRow rows ⟨i0 :: tl0, fj :: fl⟩ i0)).getD j default =
              rows.getD j default := by
          intro kg hkg j hj
          have hne : j ≠ i0 := by
            intro he
            have h1 := ((hsnd' kg hkg).1 j hj).2.2
            have h2 := hi0.2.2
            rw [he] at h1
            rw [h2] at h1
            have hko : oid = kg.1 := Option.some.inj h1
            rw [hko] at hoidnot
            exact hoidnot (List.mem_map_of_mem Prod.fst hkg)
          rw [getD_set_ne cur i0 j _ hne]
          exact htrades kg (List.mem_cons_of_mem _ hkg) j hj
        have hrec := mergePass_go rows rest
          (cur.set i0 (mergedRow rows ⟨i0 :: tl0, fj :: fl⟩ i0)) (rem ++ (fj :: fl))
          hlen' hsnd' hkeys' hfees' htrades'
        have hi0not : i0 ∉ mergedHeads rest := by
          intro hmem
          obtain ⟨kg', hkg', tl'', htr'', hfe''⟩ := mem_mergedHeads_elim rest i0 hmem
          have h1 := ((hsnd' kg' hkg').1 i0 (by
            rw [htr'']
            exact List.mem_cons_self _ _)).2.2
          have h2 := hi0.2.2
          rw [h2] at h1
          have hko : oid = kg'.1 := Option.some.inj h1
          rw [hko] at hoidnot
          exact hoidnot (List.mem_map_of_mem Prod.fst hkg')
        refine ⟨hrec.1, ?_, ?_, ?_⟩
        · rw [mergedFeeIdxs_cons_fire, hrec.2.1, List.append_assoc]
        · intro i hi
          rw [mergedHeads_cons_fire] at hi
          simp only [List.mem_cons, not_or] at hi
          rw [hrec.2.2.1 i hi.2]
          exact getD_set_ne cur i0 i _ hi.1
        · intro kg hkg i0' tl' htr hfe
          rcases List.mem_cons.mp hkg with heq | hmem
          · subst heq
            have htr' : i0 :: tl0 = i0' :: tl' := htr
            have hi0eq : i0 = i0' := (List.cons.injEq _ _ _ _).mp htr' |>.1
            subst hi0eq
            rw [hrec.2.2.1 i0 hi0not]
            exact getD_set_self cur i0 _ (by
              rw [hlen]
              exact hi0.1)
          · exact hrec.2.2.2 kg hmem i0' tl' htr hfe

theorem mergeFees_char (rows : List NRow) :
    mergeFees rows =
      dropIdxsFrom (sortDesc (mergedFeeIdxs (buildGroups rows))) 0
        ((buildGroups rows).foldl mergeStep (rows, [])).1 ∧
    ((buildGroups rows).foldl mergeStep (rows, [])).1.length = rows.length ∧
    (∀ i, i ∉ mergedHeads (buildGroups rows) →
      ((buildGroups rows).foldl mergeStep (rows, [])).1.getD i default =
        rows.getD i default) ∧
    (∀ kg ∈ buildGroups rows, ∀ i0 tl, kg.2.tradeIdxs = i0 :: tl → kg.2.feeIdxs ≠ [] →
      ((buildGroups rows).foldl mergeStep (rows, [])).1.getD i0 default =
        mergedRow rows kg.2 i0) := by
  have hsnd : ∀ kg ∈ buildGroups rows, SoundEntry rows kg.1 kg.2 :=
    fun kg hkg => (buildGroups_entry rows kg hkg).1
  have hkeys := buildGroups_keys_nodup rows
  have hgo := mergePass_go rows (buildGroups rows) rows [] rfl hsnd hkeys
    (fun kg _ i _ => rfl) (fun kg _ j _ => rfl)
  refine ⟨?_, hgo.1, hgo.2.2.1, hgo.2.2.2⟩
  have hR : ((buildGroups rows).foldl mergeStep (rows, [])).2 =
      mergedFeeIdxs (buildGroups rows) := by
    rw [hgo.2.1, List.nil_append]
  have hnodup : (mergedFeeIdxs (buildGroups rows)).Nodup :=
    mergedFeeIdxs_nodup rows (buildGroups rows)
      (fun kg hkg => ⟨(buildGroups_entry rows kg hkg).1,
        (buildGroups_entry rows kg hkg).2.2⟩) hkeys
  have hbound := mergedFeeIdxs_bound rows (buildGroups rows) hsnd
  show removeIdxs ((buildGroups rows).foldl mergeStep (rows, [])).1
      (sortDesc ((buildGroups rows).foldl mergeStep (rows, [])).2) = _
  rw [hR]
  exact removeIdxs_eq_dropIdxs (sortDesc (mergedFeeIdxs (buildGroups rows)))
    ((buildGroups rows).foldl mergeStep (rows, [])).1
    (sortDesc_pairwise_gt _ hnodup)
    (fun j hj => by
      rw [hgo.1]
      exact hbound j ((mem_sortDesc _ j).mp hj))

/-- **C6, counterexample.**  On the claim's own example shape — a trade
row (`order_id` X, `quote_asset` BTC, no fee fields) grouped with one fee
row (`fee_amount` 0.5, `fee_asset` NOK) — `mergeFees` sets the merged
row's `fee_asset` to BTC, the trade row's own `quote_asset`, not to NOK,
the first non-null fee asset of the fee rows as the claim states: the
code's precedence is `main.fee_asset ?? main.quote_asset` first, group
fee assets only as a fallback. -/
theorem C6_counterexample :
    firstTruthyAsset [c6trade, c6fee] [1] = some "NOK" ∧
    (mergeFees [c6trade, c6fee]).map (fun r => r.fee_asset) = [some "BTC"] ∧
    some "BTC" ≠ some "NOK" :=
  ⟨by decide, by decide, by decide⟩

/-- **C6.**  What `mergeFees` actually does on every group holding a
trade-like row and at least one fee row: the group's first trade index
`i0` is overwritten with `mergedRow` — whose `fee_amount` adds the sum of
the group's fee magnitudes (explicit `fee_amount`, else `|base_amount|`,
else 0) onto the trade row's own fee, and whose `fee_asset` is
`assetCombine`: the trade row's `fee_asset ?? quote_asset` when truthy,
only otherwise the group's first truthy fee asset — and that row is in the
output; the group's standalone fee rows are among the removed indices, and
every output row originates at a non-removed position, unchanged unless it
is a merged head. -/
theorem C6_fee_merge (rows : List NRow) (oid : String) (g : FeeGroup) (i0 : Nat)
    (tl : List Nat) (hmem : (oid, g) ∈ buildGroups rows)
    (htr : g.tradeIdxs = i0 :: tl) (hfe : g.feeIdxs ≠ []) :
    mergedRow rows g i0 ∈ mergeFees rows ∧
    (mergedRow rows g i0).fee_amount =
      some (((numOrNull (rows.getD i0 default).fee_amount).getD 0) +
        feeSum rows g.feeIdxs) ∧
    (mergedRow rows g i0).fee_asset =
      assetCombine rows
        ((rows.getD i0 default).fee_asset <|> (rows.getD i0 default).quote_asset)
        g.feeIdxs ∧
    (∀ i ∈ g.feeIdxs, i ∈ mergedFeeIdxs (buildGroups rows)) ∧
    (∀ x ∈ mergeFees rows, ∃ m, m < rows.length ∧
      m ∉ mergedFeeIdxs (buildGroups rows) ∧
      (m ∈ mergedHeads (buildGroups rows) ∨ x = rows.getD m default)) := by
  have hchar := mergeFees_char rows
  have hentry := buildGroups_entry rows (oid, g) hmem
  have hi0tr : i0 ∈ g.tradeIdxs := by
    rw [htr]
    exact List.mem_cons_self _ _
  have hi0 := hentry.1.1 i0 hi0tr
  have hi0R : i0 ∉ mergedFeeIdxs (buildGroups rows) := by
    intro hin
    obtain ⟨kg', hkg', hif, _⟩ := mem_mergedFeeIdxs_elim (buildGroups rows) i0 hin
    have hfee := ((buildGroups_entry rows kg' hkg').1.2 i0 hif).2.1
    have htl := hi0.2.1
    rw [hfee] at htl
    exact absurd htl (by decide)
  refine ⟨?_, rfl, rfl, ?_, ?_⟩
  · rw [hchar.1]
    refine (mem_dropIdxsFrom _ _ _ _).mpr ⟨i0, ?_, ?_, ?_⟩
    · rw [hchar.2.1]
      exact hi0.1
    · intro hmem'
      exact hi0R (by simpa using (mem_sortDesc _ _).mp hmem')
    · exact hchar.2.2.2 (oid, g) hmem i0 tl htr hfe
  · intro i hi
    exact mem_mergedFeeIdxs_intro (buildGroups rows) (oid, g) hmem
      (by rw [htr]; simp) i hi
  · intro x hx
    rw [hchar.1] at hx
    obtain ⟨m, hm, hnb, hget⟩ := (mem_dropIdxsFrom _ _ _ _).mp hx
    rw [hchar.2.1] at hm
    have hmR : m ∉ mergedFeeIdxs (buildGroups rows) := by
      intro hin
      exact hnb (by simpa using (mem_sortDesc _ _).mpr hin)
    refine ⟨m, hm, hmR, ?_⟩
    by_cases hmh : m ∈ mergedHeads (buildGroups rows)
    · exact Or.inl hmh
    · refine Or.inr ?_
      rw [← hget, hchar.2.2.1 m hmh]

/-- **C6, witness**: the merge theorem applied to the concrete two-row
group (trade at index 0, fee at index 1, order id X). -/
theorem C6_fee_merge_witness :
    (("X", (⟨[0], [1]⟩ : FeeGroup)) ∈ buildGroups [c6trade, c6fee]) ∧
    ((⟨[0], [1]⟩ : FeeGroup).feeIdxs ≠ []) ∧
    mergedRow [c6trade, c6fee] ⟨[0], [1]⟩ 0 ∈ mergeFees [c6trade, c6fee] :=
  ⟨by decide, by decide,
    (C6_fee_merge [c6trade, c6fee] "X" ⟨[0], [1]⟩ 0 [] (by decide) rfl
      (by decide)).1⟩

/-! ## C9 — determinism and idempotence of normalize + merge -/

theorem getD_mem {α : Type} [Inhabited α] :
    ∀ (l : List α) (i : Nat), i < l.length → l.getD i default ∈ l
  | [], i, h => absurd h (by simp)
  | x :: xs, 0, _ => List.mem_cons_self _ _
  | x :: xs, i + 1, h =>
    List.mem_cons_of_mem _ (getD_mem xs i (by simpa using h))

theorem mergedRow_txn_type (rows : List NRow) (g : FeeGroup) (i0 : Nat) :
    (mergedRow rows g i0).txn_type = (rows.getD i0 default).txn_type := rfl

theorem mergedRow_order_id (rows : List NRow) (g : FeeGroup) (i0 : Nat) :
    (mergedRow rows g i0).order_id = (rows.getD i0 default).order_id := rfl

/-- Every row of `mergeFees rows` originates at a position of `rows` that
was not absorbed, and keeps that row's transaction type and order id. -/
theorem mergeFees_origin (rows : List NRow) (i : Nat)
    (hi : i < (mergeFees rows).length) :
    ∃ m, m < rows.length ∧ m ∉ mergedFeeIdxs (buildGroups rows) ∧
      ((mergeFees rows).getD i default).txn_type = (rows.getD m default).txn_type ∧
      ((mergeFees rows).getD i default).order_id = (rows.getD m default).order_id := by
  have hchar := mergeFees_char rows
  have hmem : (mergeFees rows).getD i default ∈
      dropIdxsFrom (sortDesc (mergedFeeIdxs (buildGroups rows))) 0
        ((buildGroups rows).foldl mergeStep (rows, [])).1 := by
    rw [← hchar.1]
    exact getD_mem _ i hi
  obtain ⟨m, hm, hnb, hget⟩ := (mem_dropIdxsFrom _ _ _ _).mp hmem
  rw [hchar.2.1] at hm
  have hmR : m ∉ mergedFeeIdxs (buildGroups rows) := fun hin =>
    hnb (by simpa using (mem_sortDesc _ _).mpr hin)
  refine ⟨m, hm, hmR, ?_⟩
  by_cases hmh : m ∈ mergedHeads (buildGroups rows)
  · obtain ⟨kg', hkg', tl', htr', hfe'⟩ := mem_mergedHeads_elim _ m hmh
    have hPm := hchar.2.2.2 kg' hkg' m tl' htr' hfe'
    rw [← hget, hPm]
    exact ⟨mergedRow_txn_type rows kg'.2 m, mergedRow_order_id rows kg'.2 m⟩
  · rw [← hget, hchar.2.2.1 m hmh]
    exact ⟨rfl, rfl⟩

/-- After one pass of `mergeFees`, no remaining group holds both a
trade-like row and a fee row: qualifying fee rows were spliced out. -/
theorem mergeFees_output_degenerate (rows : List NRow) :
    ∀ kg ∈ buildGroups (mergeFees rows), kg.2.tradeIdxs = [] ∨ kg.2.feeIdxs = [] := by
  intro kg hkg
  by_cases htne : kg.2.tradeIdxs = []
  · exact Or.inl htne
  by_cases hfne : kg.2.feeIdxs = []
  · exact Or.inr hfne
  exfalso
  obtain ⟨i', hi'⟩ : ∃ i', i' ∈ kg.2.tradeIdxs := by
    cases h : kg.2.tradeIdxs with
    | nil => exact absurd h htne
    | cons a l =>
      exact ⟨a, List.mem_cons_self _ _⟩
  obtain ⟨j', hj'⟩ : ∃ j', j' ∈ kg.2.feeIdxs := by
    cases h : kg.2.feeIdxs with
    | nil => exact absurd h hfne
    | cons a l =>
      exact ⟨a, List.mem_cons_self _ _⟩
  have hentry := buildGroups_entry (mergeFees rows) kg hkg
  have hti := hentry.1.1 i' hi'
  have hfj := hentry.1.2 j' hj'
  obtain ⟨mt, hmt, hmtR, hmtT, hmtO⟩ := mergeFees_origin rows i' hti.1
  obtain ⟨mf, hmf, hmfR, hmfT, hmfO⟩ := mergeFees_origin rows j' hfj.1
  have hmtTr : isTradeLike (rows.getD mt default).txn_type = true := by
    rw [← hmtT]
    exact hti.2.1
  have hmtOid : jsTruthyStr (rows.getD mt default).order_id = some kg.1 := by
    have h := hti.2.2
    rw [hmtO] at h
    exact h
  have hmfFee : (rows.getD mf default).txn_type = .fee := by
    rw [← hmfT]
    exact hfj.2.1
  have hmfOid : jsTruthyStr (rows.getD mf default).order_id = some kg.1 := by
    have h := hfj.2.2
    rw [hmfO] at h
    exact h
  obtain ⟨_, _, hcomp⟩ := buildGroups_inv rows
  obtain ⟨gt, hgtlook, hgtmem⟩ := (hcomp mt hmt hmt kg.1 hmtOid).2 hmtTr
  obtain ⟨gf2, hgflook, hgfmem⟩ := (hcomp mf hmf hmf kg.1 hmfOid).1 hmfFee
  have hgeq : gt = gf2 := by
    rw [hgtlook] at hgflook
    exact Option.some.inj hgflook
  subst hgeq
  have hkmem : (kg.1, gt) ∈ buildGroups rows := mapLookup_some_mem _ _ _ hgtlook
  have hmfin : mf ∈ mergedFeeIdxs (buildGroups rows) :=
    mem_mergedFeeIdxs_intro (buildGroups rows) (kg.1, gt) hkmem
      (by
        intro h0
        rw [h0] at hgtmem
        exact absurd hgtmem (by simp))
      mf hgfmem
  exact hmfR hmfin

theorem foldl_mergeStep_degenerate :
    ∀ (gs : List (String × FeeGroup)) (acc : List NRow × List Nat),
      (∀ kg ∈ gs, kg.2.tradeIdxs = [] ∨ kg.2.feeIdxs = []) →
      gs.foldl mergeStep acc = acc
  | [], _, _ => rfl
  | ⟨oid, ⟨gt, gf⟩⟩ :: rest, acc, hdeg => by
    have hhead := hdeg _ (List.mem_cons_self _ _)
    rw [List.foldl_cons]
    have hstep : mergeStep acc (oid, ⟨gt, gf⟩) = acc := by
      rcases hhead with h | h
      · have hgt : gt = [] := h
        subst hgt
        exact mergeStep_noTrade acc oid gf
      · have hgf : gf = [] := h
        subst hgf
        cases gt with
        | nil => exact mergeStep_noTrade acc oid []
        | cons i0 tl => exact mergeStep_noFee acc oid i0 tl
    rw [hstep]
    exact foldl_mergeStep_degenerate rest acc
      (fun kg hkg => hdeg kg (List.mem_cons_of_mem _ hkg))

theorem mergeFees_id_of_degenerate (rows : List NRow)
    (h : ∀ kg ∈ buildGroups rows, kg.2.tradeIdxs = [] ∨ kg.2.feeIdxs = []) :
    mergeFees rows = rows := by
  show removeIdxs ((buildGroups rows).foldl mergeStep (rows, [])).1
      (sortDesc ((buildGroups rows).foldl mergeStep (rows, [])).2) = rows
  rw [foldl_mergeStep_degenerate (buildGroups rows) (rows, []) h]
  rfl

/-- **C9, counterexample.**  `normalizeFiri` is not a pure function of the
raw row: on a deposit whose `occurred_at` is null, `when` falls back to
`new Date().toISOString()`, so two runs at different wall-clock instants
assign different `occurred_at` values to the same raw record. -/
theorem C9_counterexample :
    (normalizeFiri "1970-01-01T00:00:00.000Z" c9raw).map (fun r => r.occurred_at) =
      some "1970-01-01T00:00:00.000Z" ∧
    (normalizeFiri "1970-01-01T00:00:01.000Z" c9raw).map (fun r => r.occurred_at) =
      some "1970-01-01T00:00:01.000Z" ∧
    ("1970-01-01T00:00:00.000Z" : String) ≠ "1970-01-01T00:00:01.000Z" :=
  ⟨by decide, by decide, by decide⟩

/-- **C9.**  Corrected re-run stability: `normalizeFiri` is deterministic
(independent of the wall clock) only on raw rows whose stored
`occurred_at` is truthy — with a null or empty timestamp the assigned
`occurred_at` is the current wall clock, so re-running normalization is
not reproducible — and `mergeFees` is idempotent: applying it to its own
output returns it unchanged, because every group of the output lacks
either a trade-like row or a fee row. -/
theorem C9_normalize_merge_idempotence :
    (∀ (now1 now2 : String) (raw : RawRow) (s : String),
      raw.occurred_at = some s → s ≠ "" →
      normalizeFiri now1 raw = normalizeFiri now2 raw) ∧
    (∀ rows : List NRow, mergeFees (mergeFees rows) = mergeFees rows) := by
  constructor
  · intro now1 now2 raw s hs hsne
    have hw : «when» raw.occurred_at now1 = «when» raw.occurred_at now2 := by
      rw [hs]
      show (if s = "" then now1 else isoReparse s) =
        (if s = "" then now2 else isoReparse s)
      rw [if_neg hsne, if_neg hsne]
    rw [normalizeFiri, normalizeFiri, hw]
  · intro rows
    exact mergeFees_id_of_degenerate (mergeFees rows) (mergeFees_output_degenerate rows)

end Arklier
